import Mathlib

/-!
Verification of the vendor/product catalog reconciliation pipeline
(normalizer, fuzzy aligner, deduplicator, match builder, discount detector).
Strings are modelled as lists of characters; prices as optional rationals
(`none` models a NaN / null price cell).
-/

/-- Lowercase mapping table for ASCII letters, modelling Python str.lower
on the ASCII fragment. -/
def lowerTable : List (Char × Char) :=
  [('A','a'), ('B','b'), ('C','c'), ('D','d'), ('E','e'), ('F','f'), ('G','g'),
   ('H','h'), ('I','i'), ('J','j'), ('K','k'), ('L','l'), ('M','m'), ('N','n'),
   ('O','o'), ('P','p'), ('Q','q'), ('R','r'), ('S','s'), ('T','t'), ('U','u'),
   ('V','v'), ('W','w'), ('X','x'), ('Y','y'), ('Z','z')]

/-- Lowercase one character (ASCII model of Python lowercasing). -/
def lowerChar (c : Char) : Char :=
  match lowerTable.find? (fun p => p.1 = c) with
  | some p => p.2
  | none => c

/-- Lowercase a whole string, modelling `str.lower`. -/
def lowerChars (s : List Char) : List Char := s.map lowerChar

/-- Remove trailing whitespace. -/
def dropTrail (s : List Char) : List Char :=
  (s.reverse.dropWhile Char.isWhitespace).reverse

/-- Strip leading and trailing whitespace, modelling `str.strip`. -/
def stripChars (s : List Char) : List Char :=
  dropTrail (s.dropWhile Char.isWhitespace)

/-- Collapse every maximal run of whitespace to one space, modelling the
regex replacement of whitespace runs by a single space. -/
def collapseChars : List Char → List Char
  | [] => []
  | [c] => if c.isWhitespace then [' '] else [c]
  | c :: d :: t =>
    if c.isWhitespace && d.isWhitespace then collapseChars (d :: t)
    else (if c.isWhitespace then ' ' else c) :: collapseChars (d :: t)

/-- Whether a string starts with a whitespace character. -/
def headSp : List Char → Bool
  | [] => false
  | c :: _ => c.isWhitespace

/-- Whether a string ends with a whitespace character. -/
def endsSp (s : List Char) : Bool := headSp s.reverse

theorem lowerChar_isWhitespace (c : Char) :
    (lowerChar c).isWhitespace = c.isWhitespace := by
  unfold lowerChar
  cases h : lowerTable.find? (fun p => p.1 = c) with
  | none => rfl
  | some p =>
    have hp : p ∈ lowerTable := List.mem_of_find?_eq_some h
    have hc : p.1 = c := by
      have := List.find?_some h
      simpa using this
    have hall : ∀ q ∈ lowerTable, q.1.isWhitespace = false ∧ q.2.isWhitespace = false := by
      decide
    have := hall p hp
    rw [← hc]
    simp [this.1, this.2]

theorem lowerChar_idem (c : Char) : lowerChar (lowerChar c) = lowerChar c := by
  unfold lowerChar
  cases h : lowerTable.find? (fun p => p.1 = c) with
  | none => rw [h]
  | some p =>
    have hp : p ∈ lowerTable := List.mem_of_find?_eq_some h
    have hnone : lowerTable.find? (fun q => q.1 = p.2) = none := by
      rw [List.find?_eq_none]
      intro q hq
      have hall : ∀ r ∈ lowerTable, ∀ q ∈ lowerTable, ¬ q.1 = r.2 := by decide
      simpa using hall p hp q hq
    rw [hnone]

theorem lowerChars_idem (s : List Char) : lowerChars (lowerChars s) = lowerChars s := by
  unfold lowerChars
  rw [List.map_map]
  apply List.map_congr_left
  intro c _
  exact lowerChar_idem c

theorem lowerChar_space : lowerChar ' ' = ' ' := by decide

/-- Unfolding lemma for `collapseChars` on a cons cell, phrased through the
head-whitespace test. -/
theorem collapse_cons (c : Char) (v : List Char) :
    collapseChars (c :: v) =
      if c.isWhitespace then
        (if headSp v then collapseChars v else ' ' :: collapseChars v)
      else c :: collapseChars v := by
  cases v with
  | nil =>
    by_cases h : c.isWhitespace <;> simp [collapseChars, headSp, h]
  | cons d t =>
    by_cases h : c.isWhitespace <;> by_cases h2 : d.isWhitespace <;>
      simp [collapseChars, headSp, h, h2]

theorem headSp_collapse (v : List Char) : headSp (collapseChars v) = headSp v := by
  induction v using collapseChars.induct with
  | case1 => rfl
  | case2 c h => simp [collapseChars, h, headSp]
  | case3 c h => simp [collapseChars, h, headSp]
  | case4 c d t h ih =>
    simp only [Bool.and_eq_true] at h
    rw [collapse_cons, if_pos h.1, if_pos (show headSp (d :: t) = true from h.2), ih]
    show headSp (d :: t) = headSp (c :: d :: t)
    simp [headSp, h.1, h.2]
  | case5 c d t h ih =>
    rw [collapse_cons]
    by_cases hc : c.isWhitespace = true
    · have hd : d.isWhitespace = false := by
        cases hdd : d.isWhitespace
        · rfl
        · exact absurd (by simp [hc, hdd]) h
      rw [if_pos hc, if_neg (show ¬ headSp (d :: t) = true by simp [headSp, hd])]
      simp [headSp, hc]
    · rw [if_neg hc]
      simp [headSp]

theorem collapse_idem (s : List Char) :
    collapseChars (collapseChars s) = collapseChars s := by
  induction s using collapseChars.induct with
  | case1 => rfl
  | case2 c h => simp [collapseChars, h]
  | case3 c h => simp [collapseChars, h]
  | case4 c d t h ih =>
    simp only [Bool.and_eq_true] at h
    rw [collapse_cons, if_pos h.1, if_pos (by simpa [headSp] using h.2), ih]
  | case5 c d t h ih =>
    rw [collapse_cons (c := c)]
    by_cases hc : c.isWhitespace
    · have hd : d.isWhitespace = false := by
        cases hdd : d.isWhitespace
        · rfl
        · exact absurd (by rw [hc, hdd]; rfl) h
      rw [if_pos hc, if_neg (by simp [headSp, hd])]
      rw [collapse_cons (c := ' '), if_pos (by decide),
        if_neg (by rw [headSp_collapse]; simp [headSp, hd]), ih]
    · rw [if_neg hc, collapse_cons (c := c), if_neg hc, ih]

theorem lowerChars_collapse (s : List Char) :
    lowerChars (collapseChars s) = collapseChars (lowerChars s) := by
  induction s using collapseChars.induct with
  | case1 => rfl
  | case2 c h =>
    have hc := lowerChar_isWhitespace c
    simp [collapseChars, h, lowerChars, lowerChar_space, hc.trans h]
  | case3 c h =>
    have hc := lowerChar_isWhitespace c
    have : (lowerChar c).isWhitespace = false := by
      rw [hc]; exact Bool.eq_false_iff.mpr h
    simp [collapseChars, Bool.eq_false_iff.mpr h, lowerChars, this]
  | case4 c d t h ih =>
    simp only [Bool.and_eq_true] at h
    have hc := (lowerChar_isWhitespace c).trans h.1
    have hd := (lowerChar_isWhitespace d).trans h.2
    have hlhs : collapseChars (c :: d :: t) = collapseChars (d :: t) := by
      simp [collapseChars, h.1, h.2]
    have hrhs : collapseChars (lowerChars (c :: d :: t))
        = collapseChars (lowerChars (d :: t)) := by
      show collapseChars (lowerChar c :: lowerChar d :: lowerChars t)
        = collapseChars (lowerChar d :: lowerChars t)
      simp [collapseChars, hc, hd]
    rw [hlhs, hrhs, ih]
  | case5 c d t h ih =>
    have h' : (c.isWhitespace && d.isWhitespace) = false := Bool.eq_false_iff.mpr h
    have h'' : ((lowerChar c).isWhitespace && (lowerChar d).isWhitespace) = false := by
      rw [lowerChar_isWhitespace, lowerChar_isWhitespace]; exact h'
    have hlhs : collapseChars (c :: d :: t)
        = (if c.isWhitespace then ' ' else c) :: collapseChars (d :: t) := by
      simp only [collapseChars, h', Bool.false_eq_true, if_false]
    have hrhs : collapseChars (lowerChars (c :: d :: t))
        = (if (lowerChar c).isWhitespace then ' ' else lowerChar c)
            :: collapseChars (lowerChars (d :: t)) := by
      show collapseChars (lowerChar c :: lowerChar d :: lowerChars t)
        = (if (lowerChar c).isWhitespace then ' ' else lowerChar c)
            :: collapseChars (lowerChar d :: lowerChars t)
      simp only [collapseChars, h'', Bool.false_eq_true, if_false]
    rw [hlhs, hrhs]
    show lowerChar (if c.isWhitespace then ' ' else c) :: lowerChars (collapseChars (d :: t)) = _
    rw [ih]
    congr 1
    by_cases hsp : c.isWhitespace = true
    · rw [if_pos hsp, if_pos (by rw [lowerChar_isWhitespace]; exact hsp), lowerChar_space]
    · rw [if_neg hsp, if_neg (by rw [lowerChar_isWhitespace]; exact hsp)]

theorem dropWhile_idem (p : Char → Bool) (l : List Char) :
    List.dropWhile p (List.dropWhile p l) = List.dropWhile p l := by
  induction l with
  | nil => rfl
  | cons c t ih =>
    by_cases h : p c = true
    · rw [List.dropWhile_cons_of_pos h, ih]
    · rw [List.dropWhile_cons_of_neg h, List.dropWhile_cons_of_neg h]

theorem dropTrail_idem (s : List Char) : dropTrail (dropTrail s) = dropTrail s := by
  unfold dropTrail
  rw [List.reverse_reverse, dropWhile_idem]

theorem dropTrail_cons (c : Char) (t : List Char) :
    dropTrail (c :: t) =
      if (dropTrail t).isEmpty then (if c.isWhitespace then [] else [c])
      else c :: dropTrail t := by
  unfold dropTrail
  rw [show (c :: t).reverse = t.reverse ++ [c] from List.reverse_cons c t,
    List.dropWhile_append]
  by_cases h : (List.dropWhile Char.isWhitespace t.reverse).isEmpty = true
  · rw [if_pos h, if_pos (by simpa using h)]
    by_cases hc : c.isWhitespace = true
    · simp [List.dropWhile, hc]
    · simp [List.dropWhile, hc]
  · rw [if_neg h, if_neg (by simpa using h), List.reverse_append]
    simp

theorem headSp_dropWhile (s : List Char) :
    headSp (List.dropWhile Char.isWhitespace s) = false := by
  induction s with
  | nil => rfl
  | cons c t ih =>
    by_cases h : c.isWhitespace = true
    · rw [List.dropWhile_cons_of_pos h]; exact ih
    · rw [List.dropWhile_cons_of_neg h]
      simpa [headSp] using Bool.eq_false_iff.mpr h

theorem dropWhile_of_headSp (l : List Char) (h : headSp l = false) :
    List.dropWhile Char.isWhitespace l = l := by
  cases l with
  | nil => rfl
  | cons c t =>
    exact List.dropWhile_cons_of_neg (by simpa [headSp] using h)

theorem headSp_dropTrail (l : List Char) (h : headSp l = false) :
    headSp (dropTrail l) = false := by
  cases l with
  | nil => rfl
  | cons c t =>
    rw [dropTrail_cons]
    by_cases he : (dropTrail t).isEmpty = true
    · rw [if_pos he]
      simp only [headSp] at h
      rw [if_neg (by simp [h])]
      simpa [headSp] using h
    · rw [if_neg he]
      simpa [headSp] using h

theorem headSp_strip (s : List Char) : headSp (stripChars s) = false := by
  unfold stripChars
  exact headSp_dropTrail _ (headSp_dropWhile s)

theorem strip_idem (s : List Char) : stripChars (stripChars s) = stripChars s := by
  have h1 : List.dropWhile Char.isWhitespace (stripChars s) = stripChars s :=
    dropWhile_of_headSp _ (headSp_strip s)
  show stripChars (stripChars s) = stripChars s
  unfold stripChars
  rw [show List.dropWhile Char.isWhitespace
        (dropTrail (List.dropWhile Char.isWhitespace s))
      = dropTrail (List.dropWhile Char.isWhitespace s) from h1,
    dropTrail_idem]

theorem lowerChars_dropWhile (s : List Char) :
    lowerChars (List.dropWhile Char.isWhitespace s)
      = List.dropWhile Char.isWhitespace (lowerChars s) := by
  unfold lowerChars
  rw [List.dropWhile_map]
  have hp : (Char.isWhitespace ∘ lowerChar) = Char.isWhitespace := by
    funext c
    simp [Function.comp, lowerChar_isWhitespace]
  rw [hp]

theorem lowerChars_reverse (s : List Char) :
    lowerChars s.reverse = (lowerChars s).reverse := by
  unfold lowerChars
  exact List.map_reverse lowerChar s

theorem lowerChars_dropTrail (s : List Char) :
    lowerChars (dropTrail s) = dropTrail (lowerChars s) := by
  unfold dropTrail
  rw [← lowerChars_reverse, ← lowerChars_dropWhile, lowerChars_reverse]

theorem lowerChars_strip (s : List Char) :
    lowerChars (stripChars s) = stripChars (lowerChars s) := by
  unfold stripChars
  rw [lowerChars_dropTrail, lowerChars_dropWhile]

theorem endsSp_cons_cons (a b : Char) (t : List Char) :
    endsSp (a :: b :: t) = endsSp (b :: t) := by
  unfold endsSp
  rw [List.reverse_cons]
  cases hrev : (b :: t).reverse with
  | nil => simp [List.reverse_eq_nil_iff] at hrev
  | cons x xs => simp [headSp]

theorem collapse_snoc (xs : List Char) (c : Char) :
    collapseChars (xs ++ [c]) =
      if c.isWhitespace then
        (if endsSp xs then collapseChars xs else collapseChars xs ++ [' '])
      else collapseChars xs ++ [c] := by
  induction xs using collapseChars.induct with
  | case1 =>
    by_cases h : c.isWhitespace = true <;> simp [collapseChars, endsSp, headSp, h]
  | case2 a h =>
    have he : endsSp [a] = true := by simp [endsSp, headSp, h]
    by_cases hc : c.isWhitespace = true <;>
      simp [collapseChars, h, hc, he]
  | case3 a h =>
    have ha : a.isWhitespace = false := Bool.eq_false_iff.mpr h
    have he : endsSp [a] = false := by simp [endsSp, headSp, ha]
    by_cases hc : c.isWhitespace = true <;>
      simp [collapseChars, ha, hc, he]
  | case4 a b t h ih =>
    simp only [Bool.and_eq_true] at h
    have hstep : collapseChars ((a :: b :: t) ++ [c]) = collapseChars ((b :: t) ++ [c]) := by
      show collapseChars (a :: (b :: (t ++ [c]))) = collapseChars (b :: (t ++ [c]))
      simp [collapseChars, h.1, h.2]
    have hst : collapseChars (a :: b :: t) = collapseChars (b :: t) := by
      simp [collapseChars, h.1, h.2]
    rw [hstep, ih, endsSp_cons_cons, hst]
  | case5 a b t h ih =>
    have h2 : (a.isWhitespace && b.isWhitespace) = false := Bool.eq_false_iff.mpr h
    have hstep : collapseChars ((a :: b :: t) ++ [c])
        = (if a.isWhitespace then ' ' else a) :: collapseChars ((b :: t) ++ [c]) := by
      show collapseChars (a :: (b :: (t ++ [c])))
        = (if a.isWhitespace then ' ' else a) :: collapseChars (b :: (t ++ [c]))
      simp only [collapseChars, h2, Bool.false_eq_true, if_false]
    have hst : collapseChars (a :: b :: t)
        = (if a.isWhitespace then ' ' else a) :: collapseChars (b :: t) := by
      simp only [collapseChars, h2, Bool.false_eq_true, if_false]
    rw [hstep, ih, endsSp_cons_cons, hst]
    by_cases hc : c.isWhitespace = true
    · rw [if_pos hc, if_pos hc]
      by_cases hes : endsSp (b :: t) = true
      · rw [if_pos hes, if_pos hes]
      · rw [if_neg hes, if_neg hes]; rfl
    · rw [if_neg hc, if_neg hc]; rfl

theorem collapse_reverse (w : List Char) :
    collapseChars w.reverse = (collapseChars w).reverse := by
  induction w with
  | nil => rfl
  | cons c v ih =>
    rw [List.reverse_cons, collapse_snoc, collapse_cons]
    have he : endsSp v.reverse = headSp v := by
      unfold endsSp
      rw [List.reverse_reverse]
    by_cases hc : c.isWhitespace = true
    · rw [if_pos hc, if_pos hc, he]
      by_cases hv : headSp v = true
      · rw [if_pos hv, if_pos hv, ih]
      · rw [if_neg hv, if_neg hv, ih, List.reverse_cons]
    · rw [if_neg hc, if_neg hc, ih, List.reverse_cons]

theorem collapse_dropWhile (u : List Char) :
    collapseChars (List.dropWhile Char.isWhitespace u)
      = List.dropWhile Char.isWhitespace (collapseChars u) := by
  induction u using collapseChars.induct with
  | case1 => rfl
  | case2 c h =>
    simp [collapseChars, h, List.dropWhile]
  | case3 c h =>
    have hc : c.isWhitespace = false := Bool.eq_false_iff.mpr h
    simp [collapseChars, hc, List.dropWhile]
  | case4 c d t h ih =>
    simp only [Bool.and_eq_true] at h
    rw [List.dropWhile_cons_of_pos h.1,
      show collapseChars (c :: d :: t) = collapseChars (d :: t) by
        simp [collapseChars, h.1, h.2],
      show List.dropWhile Char.isWhitespace (d :: t)
          = List.dropWhile Char.isWhitespace t from List.dropWhile_cons_of_pos h.2,
      ← List.dropWhile_cons_of_pos (p := Char.isWhitespace) (l := t) h.2, ih]
  | case5 c d t h ih =>
    have h2 : (c.isWhitespace && d.isWhitespace) = false := Bool.eq_false_iff.mpr h
    have hstep : collapseChars (c :: d :: t)
        = (if c.isWhitespace then ' ' else c) :: collapseChars (d :: t) := by
      simp only [collapseChars, h2, Bool.false_eq_true, if_false]
    by_cases hc : c.isWhitespace = true
    · have hd : d.isWhitespace = false := by
        cases hdd : d.isWhitespace
        · rfl
        · exact absurd (by simp [hc, hdd]) h
      rw [List.dropWhile_cons_of_pos hc,
        List.dropWhile_cons_of_neg (show ¬ d.isWhitespace = true by simp [hd]),
        hstep, if_pos hc,
        List.dropWhile_cons_of_pos (show (' ' : Char).isWhitespace = true by decide),
        dropWhile_of_headSp _ (by rw [headSp_collapse]; simp [headSp, hd])]
    · rw [List.dropWhile_cons_of_neg hc, hstep, if_neg hc,
        List.dropWhile_cons_of_neg hc]

theorem collapse_dropTrail (w : List Char) :
    collapseChars (dropTrail w) = dropTrail (collapseChars w) := by
  unfold dropTrail
  rw [collapse_reverse, collapse_dropWhile, collapse_reverse]

theorem collapse_strip (u : List Char) :
    collapseChars (stripChars u) = stripChars (collapseChars u) := by
  unfold stripChars
  rw [collapse_dropTrail, collapse_dropWhile]

/-- Vendor key as computed by the help.py normalizer:
`out["vendorName"].astype(str).str.lower().str.strip()`. -/
def helpVendorKey (s : List Char) : List Char := stripChars (lowerChars s)

/-- Vendor key as computed by the app2.py normalizer:
`str.strip().str.lower().str.replace(whitespace-run, " ")`. -/
def app2VendorKey (s : List Char) : List Char :=
  collapseChars (lowerChars (stripChars s))

/-- Vendor key as described by the words of the specification:
`lower(trim(collapseWhitespace(vendorName)))`. -/
def specVendorKey (s : List Char) : List Char :=
  lowerChars (stripChars (collapseChars s))

theorem app2VendorKey_eq_spec (s : List Char) : app2VendorKey s = specVendorKey s := by
  unfold app2VendorKey specVendorKey
  calc collapseChars (lowerChars (stripChars s))
      = collapseChars (stripChars (lowerChars s)) := by rw [lowerChars_strip]
    _ = stripChars (collapseChars (lowerChars s)) := collapse_strip _
    _ = stripChars (lowerChars (collapseChars s)) := by rw [lowerChars_collapse]
    _ = lowerChars (stripChars (collapseChars s)) := by rw [lowerChars_strip]

theorem helpVendorKey_eq_lower_trim (s : List Char) :
    helpVendorKey s = lowerChars (stripChars s) :=
  (lowerChars_strip s).symm

theorem helpVendorKey_idem (s : List Char) :
    helpVendorKey (helpVendorKey s) = helpVendorKey s := by
  unfold helpVendorKey
  rw [lowerChars_strip, strip_idem, lowerChars_idem]

theorem app2VendorKey_idem (s : List Char) :
    app2VendorKey (app2VendorKey s) = app2VendorKey s := by
  unfold app2VendorKey
  calc collapseChars (lowerChars (stripChars (collapseChars (lowerChars (stripChars s)))))
      = collapseChars (lowerChars (collapseChars (stripChars (lowerChars (stripChars s))))) := by
        rw [← collapse_strip]
    _ = collapseChars (lowerChars (collapseChars (lowerChars (stripChars (stripChars s))))) := by
        rw [← lowerChars_strip]
    _ = collapseChars (lowerChars (collapseChars (lowerChars (stripChars s)))) := by
        rw [strip_idem]
    _ = collapseChars (collapseChars (lowerChars (lowerChars (stripChars s)))) := by
        rw [lowerChars_collapse]
    _ = collapseChars (collapseChars (lowerChars (stripChars s))) := by
        rw [lowerChars_idem]
    _ = collapseChars (lowerChars (stripChars s)) := collapse_idem _

/-- ASCII punctuation test (the character classes removed by the
`no_punct` option of the text cleaner). -/
def isPunctChar (c : Char) : Bool :=
  (33 ≤ c.toNat && c.toNat ≤ 47) || (58 ≤ c.toNat && c.toNat ≤ 64) ||
  (91 ≤ c.toNat && c.toNat ≤ 96) || (123 ≤ c.toNat && c.toNat ≤ 126)

/-- Models `cleantext.clean(text, lower=True, no_punct=True)` on ASCII text:
lowercase, remove punctuation, trim, and collapse whitespace runs. -/
def cleanText (s : List Char) : List Char :=
  collapseChars (stripChars ((lowerChars s).filter (fun c => !(isPunctChar c))))

/-- Accumulator-based splitting of a string into whitespace-separated words,
modelling Python `str.split()`. -/
def wordsAux : List Char → List Char → List (List Char)
  | cur, [] => if cur.isEmpty then [] else [cur.reverse]
  | cur, c :: rest =>
    if c.isWhitespace then
      (if cur.isEmpty then wordsAux [] rest else cur.reverse :: wordsAux [] rest)
    else wordsAux (c :: cur) rest

/-- Words of a string, modelling Python `str.split()`. -/
def wordsOf (s : List Char) : List (List Char) := wordsAux [] s

/-- Fuel-driven worker for substring replacement. The fuel starts at the
text length, which bounds the number of steps. -/
def replaceSubGo (pat rep : List Char) : Nat → List Char → List Char
  | _, [] => []
  | 0, s => s
  | fuel + 1, c :: rest =>
    if pat.isEmpty then c :: replaceSubGo pat rep fuel rest
    else if pat.isPrefixOf (c :: rest) then
      rep ++ replaceSubGo pat rep fuel ((c :: rest).drop pat.length)
    else c :: replaceSubGo pat rep fuel rest

/-- Replace every non-overlapping occurrence of `pat` by `rep`, left to right,
modelling Python `str.replace`. -/
def replaceSub (pat rep s : List Char) : List Char :=
  replaceSubGo pat rep s.length s

/-- Models the pint unit-normalization used by `canonicalize`: a word is fed to
`ureg.Quantity(word).to_base_units()` and on success rewritten to
`f-string of int(q.m) and q.u`. The table records the documented pint results
on the fragment exercised here: "1kg" parses as 1 kilogram (the mks base mass
unit), and a bare numeral parses as a dimensionless quantity, so "1" is
rewritten to "1 dimensionless". Any other word fails to parse. -/
def pintNormalize (w : List Char) : Option (List Char) :=
  if w = ("1kg").data then some (("1 kilogram").data)
  else if w = ("1").data then some (("1 dimensionless").data)
  else none

/-- First word of the list that the unit parser accepts, together with its
rewritten form; models the for-loop over `cleaned.split()` in `canonicalize`. -/
def firstParse (parse : List Char → Option (List Char)) :
    List (List Char) → Option (List Char × List Char)
  | [] => none
  | w :: ws =>
    match parse w with
    | some rep => some (w, rep)
    | none => firstParse parse ws

/-- Models `canonicalize` from help.py: clean the product name, then rewrite
the first word that parses as a unit quantity (substring replacement over the
cleaned text), leaving the text unchanged when no word parses. -/
def canonicalize (parse : List Char → Option (List Char)) (prod : List Char) :
    List Char :=
  let cleaned := cleanText prod
  match firstParse parse (wordsOf cleaned) with
  | some (w, rep) => replaceSub w rep cleaned
  | none => cleaned

/-- Product key of the help.py normalizer: `canonicalize` with the pint
unit-rewrite hook. -/
def helpProductKey (prod : List Char) : List Char :=
  canonicalize pintNormalize prod

/-- Raw price cell of an input table: either a value that parses as a decimal
number, or unparseable text. -/
inductive RawVal where
  | num (q : ℚ)
  | text (s : List Char)
deriving DecidableEq

/-- Models `pd.to_numeric(col, errors="coerce")` on one cell: a numeric cell
keeps its value, an unparseable cell becomes null. -/
def toNumeric : RawVal → Option ℚ
  | RawVal.num q => some q
  | RawVal.text _ => none

/-- One raw catalog row (the fields used by the pipeline core). -/
structure RawRow where
  vendorName : List Char
  productName : List Char
  price : RawVal
deriving DecidableEq

/-- One normalized catalog row: display name, derived keys, parsed price. -/
structure NRow where
  vendorName : List Char
  vendorKey : List Char
  productKey : List Char
  price : Option ℚ
deriving DecidableEq

/-- Models `normalize` from help.py (the name `normalize` itself is taken by
the library): one output row per input row, with `vendorName_clean` from
lowercasing and stripping, `productName_clean` from `canonicalize`, and the
price coerced to numeric-or-null. -/
def normalizeCatalog (df : List RawRow) : List NRow :=
  df.map fun r =>
    { vendorName := r.vendorName
      vendorKey := helpVendorKey r.vendorName
      productKey := helpProductKey r.productName
      price := toNumeric r.price }

/-- Lexicographic strict comparison of strings, as used by the sort on the
string key columns. -/
def ltChars : List Char → List Char → Bool
  | [], [] => false
  | [], _ :: _ => true
  | _ :: _, [] => false
  | a :: s, b :: t => if a < b then true else if b < a then false else ltChars s t

theorem ltChars_irrefl (s : List Char) : ltChars s s = false := by
  induction s with
  | nil => rfl
  | cons a t ih => simp [ltChars, lt_irrefl, ih]

theorem ltChars_trans : ∀ (a b c : List Char),
    ltChars a b = true → ltChars b c = true → ltChars a c = true
  | [], _ :: _, _ :: _, _, _ => rfl
  | [], [], _, hab, _ => by simp [ltChars] at hab
  | [], _ :: _, [], _, hbc => by simp [ltChars] at hbc
  | _ :: _, [], _, hab, _ => by simp [ltChars] at hab
  | _ :: _, _ :: _, [], _, hbc => by simp [ltChars] at hbc
  | x :: s, y :: t, z :: u, hab, hbc => by
    simp only [ltChars] at hab hbc ⊢
    by_cases hxy : x < y
    · by_cases hyz : y < z
      · rw [if_pos (lt_trans hxy hyz)]
      · have hzy : ¬ z < y := by
          intro hzy
          rw [if_neg hyz, if_pos hzy] at hbc
          exact Bool.false_ne_true hbc
        have hyzeq : y = z := le_antisymm (not_lt.1 hzy) (not_lt.1 hyz)
        rw [if_pos (hyzeq ▸ hxy)]
    · have hab' : ¬ y < x ∧ ltChars s t = true := by
        by_cases hyx : y < x
        · rw [if_neg hxy, if_pos hyx] at hab
          exact absurd hab Bool.false_ne_true
        · rw [if_neg hxy, if_neg hyx] at hab
          exact ⟨hyx, hab⟩
      have hxyeq : x = y := le_antisymm (not_lt.1 hab'.1) (not_lt.1 hxy)
      by_cases hyz : y < z
      · rw [if_pos (hxyeq ▸ hyz)]
      · have hbc' : ¬ z < y ∧ ltChars t u = true := by
          by_cases hzy : z < y
          · rw [if_neg hyz, if_pos hzy] at hbc
            exact absurd hbc Bool.false_ne_true
          · rw [if_neg hyz, if_neg hzy] at hbc
            exact ⟨hzy, hbc⟩
        have hyzeq : y = z := le_antisymm (not_lt.1 hbc'.1) (not_lt.1 hyz)
        subst hxyeq
        subst hyzeq
        rw [if_neg (lt_irrefl x), if_neg (lt_irrefl x)]
        exact ltChars_trans s t u hab'.2 hbc'.2

theorem ltChars_connex : ∀ (a b : List Char), a ≠ b →
    ltChars a b = true ∨ ltChars b a = true
  | [], [], h => absurd rfl h
  | [], _ :: _, _ => Or.inl rfl
  | _ :: _, [], _ => Or.inr rfl
  | x :: s, y :: t, h => by
    by_cases hxy : x < y
    · exact Or.inl (by simp [ltChars, hxy])
    · by_cases hyx : y < x
      · exact Or.inr (by simp [ltChars, hyx])
      · have hxyeq : x = y := le_antisymm (not_lt.1 hyx) (not_lt.1 hxy)
        have hst : s ≠ t := fun hst => h (by rw [hxyeq, hst])
        rcases ltChars_connex s t hst with hl | hr
        · refine Or.inl ?_
          subst hxyeq
          simpa [ltChars, lt_irrefl] using hl
        · refine Or.inr ?_
          subst hxyeq
          simpa [ltChars, lt_irrefl] using hr

/-- Price ordering used by `deduplicate_max_price`: descending on non-null
prices, nulls last (as `sort_values(ascending=False)` places NaN last). -/
def optLeDesc : Option ℚ → Option ℚ → Bool
  | some a, some b => decide (b ≤ a)
  | some _, none => true
  | none, some _ => false
  | none, none => true

/-- Price ordering used by `deduplicate_min_price`: ascending on non-null
prices, nulls last (as `sort_values(ascending=True)` places NaN last). -/
def optLeAsc : Option ℚ → Option ℚ → Bool
  | some a, some b => decide (a ≤ b)
  | some _, none => true
  | none, some _ => false
  | none, none => true

theorem optLeDesc_refl (p : Option ℚ) : optLeDesc p p = true := by
  cases p <;> simp [optLeDesc]

theorem optLeAsc_refl (p : Option ℚ) : optLeAsc p p = true := by
  cases p <;> simp [optLeAsc]

theorem optLeDesc_trans (p q r : Option ℚ) (h1 : optLeDesc p q = true)
    (h2 : optLeDesc q r = true) : optLeDesc p r = true := by
  cases p <;> cases q <;> cases r <;>
    simp_all [optLeDesc, decide_eq_true_eq] <;> exact le_trans h2 h1

theorem optLeAsc_trans (p q r : Option ℚ) (h1 : optLeAsc p q = true)
    (h2 : optLeAsc q r = true) : optLeAsc p r = true := by
  cases p <;> cases q <;> cases r <;>
    simp_all [optLeAsc, decide_eq_true_eq] <;> exact le_trans h1 h2

theorem optLeDesc_total (p q : Option ℚ) :
    optLeDesc p q = true ∨ optLeDesc q p = true := by
  cases p <;> cases q <;> simp [optLeDesc, decide_eq_true_eq]
  exact le_total _ _

theorem optLeAsc_total (p q : Option ℚ) :
    optLeAsc p q = true ∨ optLeAsc q p = true := by
  cases p <;> cases q <;> simp [optLeAsc, decide_eq_true_eq]
  exact le_total _ _

/-- Row comparison corresponding to
`sort_values(["vendorName_clean", "productName_clean", "productPrice"])`,
parameterized by the price ordering (ascending or descending). -/
def rowLe (pLe : Option ℚ → Option ℚ → Bool) (a b : NRow) : Bool :=
  if a.vendorKey = b.vendorKey then
    (if a.productKey = b.productKey then pLe a.price b.price
     else ltChars a.productKey b.productKey)
  else ltChars a.vendorKey b.vendorKey

theorem rowLe_total (pLe : Option ℚ → Option ℚ → Bool)
    (hp : ∀ p q, pLe p q = true ∨ pLe q p = true) (a b : NRow) :
    rowLe pLe a b = true ∨ rowLe pLe b a = true := by
  unfold rowLe
  by_cases hv : a.vendorKey = b.vendorKey
  · by_cases hpk : a.productKey = b.productKey
    · rw [if_pos hv, if_pos hv.symm, if_pos hpk, if_pos hpk.symm]
      exact hp _ _
    · rw [if_pos hv, if_pos hv.symm, if_neg hpk, if_neg (fun h => hpk h.symm)]
      exact ltChars_connex _ _ hpk
  · rw [if_neg hv, if_neg (fun h => hv h.symm)]
    exact ltChars_connex _ _ hv

theorem rowLe_trans (pLe : Option ℚ → Option ℚ → Bool)
    (hp : ∀ p q r, pLe p q = true → pLe q r = true → pLe p r = true)
    (a b c : NRow) (hab : rowLe pLe a b = true) (hbc : rowLe pLe b c = true) :
    rowLe pLe a c = true := by
  unfold rowLe at hab hbc ⊢
  by_cases hvab : a.vendorKey = b.vendorKey
  · by_cases hvbc : b.vendorKey = c.vendorKey
    · have hvac : a.vendorKey = c.vendorKey := hvab.trans hvbc
      rw [if_pos hvab] at hab
      rw [if_pos hvbc] at hbc
      rw [if_pos hvac]
      by_cases hpab : a.productKey = b.productKey
      · by_cases hpbc : b.productKey = c.productKey
        · have hpac : a.productKey = c.productKey := hpab.trans hpbc
          rw [if_pos hpab] at hab
          rw [if_pos hpbc] at hbc
          rw [if_pos hpac]
          exact hp _ _ _ hab hbc
        · have hpac : ¬ a.productKey = c.productKey := hpab ▸ hpbc
          rw [if_neg hpbc] at hbc
          rw [if_neg hpac, hpab]
          exact hbc
      · by_cases hpbc : b.productKey = c.productKey
        · have hpac : ¬ a.productKey = c.productKey := fun h => hpab (h.trans hpbc.symm)
          rw [if_neg hpab] at hab
          rw [if_neg hpac, ← hpbc]
          exact hab
        · rw [if_neg hpab] at hab
          rw [if_neg hpbc] at hbc
          by_cases hpac : a.productKey = c.productKey
          · have h1 := ltChars_trans _ _ _ hab hbc
            rw [hpac, ltChars_irrefl] at h1
            exact absurd h1 Bool.false_ne_true
          · rw [if_neg hpac]
            exact ltChars_trans _ _ _ hab hbc
    · have hvac : ¬ a.vendorKey = c.vendorKey := hvab ▸ hvbc
      rw [if_neg hvbc] at hbc
      rw [if_neg hvac, hvab]
      exact hbc
  · by_cases hvbc : b.vendorKey = c.vendorKey
    · have hvac : ¬ a.vendorKey = c.vendorKey := fun h => hvab (h.trans hvbc.symm)
      rw [if_neg hvab] at hab
      rw [if_neg hvac, ← hvbc]
      exact hab
    · rw [if_neg hvab] at hab
      rw [if_neg hvbc] at hbc
      by_cases hvac : a.vendorKey = c.vendorKey
      · have h1 := ltChars_trans _ _ _ hab hbc
        rw [hvac, ltChars_irrefl] at h1
        exact absurd h1 Bool.false_ne_true
      · rw [if_neg hvac]
        exact ltChars_trans _ _ _ hab hbc

/-- Insert one element into a sorted list (worker of the sort that models
`sort_values`). -/
def insertRow {α : Type} (le : α → α → Bool) (a : α) : List α → List α
  | [] => [a]
  | b :: t => if le a b then a :: b :: t else b :: insertRow le a t

/-- Sort a list by the boolean comparison `le`, modelling `sort_values`. -/
def sortRows {α : Type} (le : α → α → Bool) : List α → List α
  | [] => []
  | a :: t => insertRow le a (sortRows le t)

theorem insertRow_perm {α : Type} (le : α → α → Bool) (a : α) (l : List α) :
    List.Perm (insertRow le a l) (a :: l) := by
  induction l with
  | nil => exact List.Perm.refl _
  | cons b t ih =>
    unfold insertRow
    by_cases h : le a b = true
    · rw [if_pos h]
    · rw [if_neg h]
      exact ((ih.cons b).trans (List.Perm.swap a b t))

theorem sortRows_perm {α : Type} (le : α → α → Bool) (l : List α) :
    List.Perm (sortRows le l) l := by
  induction l with
  | nil => exact List.Perm.refl _
  | cons a t ih =>
    exact (insertRow_perm le a (sortRows le t)).trans (ih.cons a)

theorem insertRow_pairwise {α : Type} (le : α → α → Bool)
    (htrans : ∀ x y z, le x y = true → le y z = true → le x z = true)
    (htotal : ∀ x y, le x y = true ∨ le y x = true) (a : α) (l : List α)
    (hl : l.Pairwise (fun x y => le x y = true)) :
    (insertRow le a l).Pairwise (fun x y => le x y = true) := by
  induction l with
  | nil => simp [insertRow]
  | cons b t ih =>
    rcases List.pairwise_cons.1 hl with ⟨hb, ht⟩
    unfold insertRow
    by_cases h : le a b = true
    · rw [if_pos h]
      refine List.pairwise_cons.2 ⟨?_, hl⟩
      intro x hx
      rcases List.mem_cons.1 hx with rfl | hx
      · exact h
      · exact htrans a b x h (hb x hx)
    · rw [if_neg h]
      refine List.pairwise_cons.2 ⟨?_, ih ht⟩
      intro x hx
      have := (insertRow_perm le a t).mem_iff.1 hx
      rcases List.mem_cons.1 this with rfl | hx'
      · rcases htotal x b with hab | hba
        · exact absurd hab h
        · exact hba
      · exact hb x hx'

theorem sortRows_pairwise {α : Type} (le : α → α → Bool)
    (htrans : ∀ x y z, le x y = true → le y z = true → le x z = true)
    (htotal : ∀ x y, le x y = true ∨ le y x = true) (l : List α) :
    (sortRows le l).Pairwise (fun x y => le x y = true) := by
  induction l with
  | nil => simp [sortRows]
  | cons a t ih => exact insertRow_pairwise le htrans htotal a _ ih

/-- Keep the first row of each key group, modelling
`drop_duplicates(keys, keep="first")` applied to a frame whose key groups are
already sorted. `seen` holds the keys already emitted. -/
def dedupFirstAux {α κ : Type} [DecidableEq κ] (key : α → κ) (seen : List κ) :
    List α → List α
  | [] => []
  | r :: rs =>
    if key r ∈ seen then dedupFirstAux key seen rs
    else r :: dedupFirstAux key (key r :: seen) rs

/-- First-occurrence deduplication by key, modelling
`drop_duplicates(keys, keep="first")`. -/
def dedupFirst {α κ : Type} [DecidableEq κ] (key : α → κ) (l : List α) : List α :=
  dedupFirstAux key [] l

theorem mem_of_mem_dedupFirstAux {α κ : Type} [DecidableEq κ] (key : α → κ)
    (seen : List κ) (l : List α) (x : α) (hx : x ∈ dedupFirstAux key seen l) :
    x ∈ l := by
  induction l generalizing seen with
  | nil => simpa [dedupFirstAux] using hx
  | cons r rs ih =>
    unfold dedupFirstAux at hx
    by_cases h : key r ∈ seen
    · rw [if_pos h] at hx
      exact List.mem_cons_of_mem r (ih seen hx)
    · rw [if_neg h] at hx
      rcases List.mem_cons.1 hx with rfl | hx'
      · exact List.mem_cons.2 (Or.inl rfl)
      · exact List.mem_cons_of_mem r (ih _ hx')

theorem dedupFirstAux_filter {α κ : Type} [DecidableEq κ] (key : α → κ)
    (k : κ) (l : List α) (seen : List κ) :
    (dedupFirstAux key seen l).filter (fun r => key r = k)
      = if k ∈ seen then [] else (l.filter (fun r => key r = k)).take 1 := by
  induction l generalizing seen with
  | nil => by_cases h : k ∈ seen <;> simp [dedupFirstAux, h]
  | cons r rs ih =>
    unfold dedupFirstAux
    by_cases hseen : key r ∈ seen
    · rw [if_pos hseen, ih seen]
      by_cases hk : k ∈ seen
      · rw [if_pos hk, if_pos hk]
      · rw [if_neg hk, if_neg hk]
        have hrk : ¬ key r = k := fun h => hk (h ▸ hseen)
        rw [List.filter_cons_of_neg (by simpa using hrk)]
    · rw [if_neg hseen]
      by_cases hrk : key r = k
      · have hknotseen : ¬ k ∈ seen := fun h => hseen (hrk ▸ h)
        rw [if_neg hknotseen,
          List.filter_cons_of_pos (by simpa using hrk),
          List.filter_cons_of_pos (by simpa using hrk),
          ih (key r :: seen), if_pos (by simp [hrk])]
        simp
      · rw [List.filter_cons_of_neg (by simpa using hrk), ih (key r :: seen)]
        by_cases hk : k ∈ seen
        · rw [if_pos (by simp [hk]), if_pos hk]
        · rw [if_neg (show ¬ k ∈ key r :: seen by
              simp only [List.mem_cons]
              rintro (h | h)
              · exact hrk h.symm
              · exact hk h), if_neg hk,
            List.filter_cons_of_neg (by simpa using hrk)]

/-- Key of a normalized row: the (vendorKey, productKey) pair. -/
def keyOf (r : NRow) : List Char × List Char := (r.vendorKey, r.productKey)

/-- Models `deduplicate_max_price` from help.py: sort by vendor key, product
key and descending price (nulls last), then keep the first row per
(vendorKey, productKey) pair. -/
def deduplicate_max_price (df : List NRow) : List NRow :=
  dedupFirst keyOf (sortRows (rowLe optLeDesc) df)

/-- Models `deduplicate_min_price` from app2.py: sort by vendor key, product
key and ascending price (nulls last), then keep the first row per key pair. -/
def deduplicate_min_price (df : List NRow) : List NRow :=
  dedupFirst keyOf (sortRows (rowLe optLeAsc) df)

theorem rowLe_of_keyEq (pLe : Option ℚ → Option ℚ → Bool) (a b : NRow)
    (h : keyOf a = keyOf b) : rowLe pLe a b = pLe a.price b.price := by
  have h1 : a.vendorKey = b.vendorKey := congrArg Prod.fst h
  have h2 : a.productKey = b.productKey := congrArg Prod.snd h
  unfold rowLe
  rw [if_pos h1, if_pos h2]

theorem dedup_spec (pLe : Option ℚ → Option ℚ → Bool)
    (hrefl : ∀ p, pLe p p = true)
    (htrans : ∀ p q r, pLe p q = true → pLe q r = true → pLe p r = true)
    (htotal : ∀ p q, pLe p q = true ∨ pLe q p = true)
    (df : List NRow) (k : List Char × List Char) :
    ((dedupFirst keyOf (sortRows (rowLe pLe) df)).countP (fun r => keyOf r = k)
        = if k ∈ df.map keyOf then 1 else 0)
    ∧ (∀ r ∈ dedupFirst keyOf (sortRows (rowLe pLe) df), r ∈ df)
    ∧ (∀ r ∈ dedupFirst keyOf (sortRows (rowLe pLe) df),
        ∀ x ∈ df, keyOf x = keyOf r → pLe r.price x.price = true) := by
  set L := sortRows (rowLe pLe) df with hLdef
  have hperm : List.Perm L df := sortRows_perm _ df
  have hpair : L.Pairwise (fun a b => rowLe pLe a b = true) :=
    sortRows_pairwise _ (rowLe_trans pLe htrans) (rowLe_total pLe htotal) df
  have hfilterchar : ∀ k' : List Char × List Char,
      (dedupFirst keyOf L).filter (fun r => keyOf r = k')
        = (L.filter (fun r => keyOf r = k')).take 1 := by
    intro k'
    have := dedupFirstAux_filter keyOf k' L []
    simpa [dedupFirst] using this
  refine ⟨?_, ?_, ?_⟩
  · rw [List.countP_eq_length_filter, hfilterchar k, List.length_take]
    by_cases hmem : k ∈ df.map keyOf
    · rw [if_pos hmem]
      have hk : k ∈ L.map keyOf := ((hperm.map keyOf).mem_iff).2 hmem
      rcases List.mem_map.1 hk with ⟨r, hrL, hrk⟩
      have hne : (L.filter (fun r => keyOf r = k)).length ≠ 0 := by
        simp only [ne_eq, List.length_eq_zero]
        intro hnil
        have hrf : r ∈ L.filter (fun r => keyOf r = k) :=
          List.mem_filter.2 ⟨hrL, by simpa using hrk⟩
        rw [hnil] at hrf
        exact absurd hrf (List.not_mem_nil r)
      omega
    · rw [if_neg hmem]
      have hnil : L.filter (fun r => keyOf r = k) = [] := by
        rw [List.filter_eq_nil_iff]
        intro r hrL hrk
        exact hmem (List.mem_map.2 ⟨r, (hperm.mem_iff).1 hrL, by simpa using hrk⟩)
      rw [hnil]
      simp
  · intro r hr
    exact (hperm.mem_iff).1 (mem_of_mem_dedupFirstAux keyOf [] L r hr)
  · intro r hr x hx hkx
    have hrf : r ∈ ((dedupFirst keyOf L).filter (fun s => keyOf s = keyOf r)) :=
      List.mem_filter.2 ⟨hr, by simp⟩
    rw [hfilterchar (keyOf r)] at hrf
    cases hLf : L.filter (fun s => keyOf s = keyOf r) with
    | nil =>
      rw [hLf] at hrf
      simp at hrf
    | cons r0 rest =>
      rw [hLf] at hrf
      have hr0 : r = r0 := by simpa [List.take] using hrf
      subst hr0
      have hpairf : (L.filter (fun s => keyOf s = keyOf r)).Pairwise
          (fun a b => rowLe pLe a b = true) :=
        hpair.sublist (List.filter_sublist L)
      rw [hLf] at hpairf
      rcases List.pairwise_cons.1 hpairf with ⟨hhead, _⟩
      have hxL : x ∈ L.filter (fun s => keyOf s = keyOf r) :=
        List.mem_filter.2 ⟨(hperm.mem_iff).2 hx, by simpa using hkx⟩
      rw [hLf] at hxL
      rcases List.mem_cons.1 hxL with rfl | hx'
      · exact hrefl _
      · have := hhead x hx'
        rw [rowLe_of_keyEq pLe r x hkx.symm] at this
        exact this

/-- Rows produced by an outer merge for one left row: one pair per matching
right row, or a single left-only pair when no right row shares the key. -/
def matchedPairs {α κ : Type} [DecidableEq κ] (key : α → κ) (rs : List α)
    (l : α) : List (Option α × Option α) :=
  let ms := rs.filter fun r => key r = key l
  if ms.isEmpty then [(some l, none)] else ms.map fun r => (some l, some r)

/-- Full outer join on a key, modelling `merge(on=keys, how="outer")`:
every left row paired with its key matches (or with an absent right side),
followed by the right rows that match no left row. -/
def outerMerge {α κ : Type} [DecidableEq κ] (key : α → κ) (ls rs : List α) :
    List (Option α × Option α) :=
  (ls.flatMap (matchedPairs key rs))
    ++ ((rs.filter fun r => ls.all fun l => decide (¬ key l = key r)).map
        fun r => ((none : Option α), some r))

/-- Join key of a merged pair (defined on whichever side is present). -/
def mergedKey {α κ : Type} (key : α → κ) : Option α × Option α → Option κ
  | (some l, _) => some (key l)
  | (none, some r) => some (key r)
  | (none, none) => none

/-- Match status of a merged pair, as the `_merge` indicator is mapped to a
status string. -/
def statusOf {α β : Type} : Option α × Option β → String
  | (some _, some _) => "Matched"
  | (some _, none) => "Only in Company1"
  | (none, some _) => "Only in Company2"
  | (none, none) => ""

theorem countP_key_nodup {α κ : Type} [DecidableEq κ] (key : α → κ)
    (l : List α) (k : κ) (h : (l.map key).Nodup) :
    l.countP (fun r => key r = k) = if k ∈ l.map key then 1 else 0 := by
  induction l with
  | nil => simp
  | cons r t ih =>
    have h' : (∀ x ∈ t, ¬ key x = key r) ∧ (t.map key).Nodup := by simpa using h
    rw [List.countP_cons, ih h'.2]
    by_cases hkr : key r = k
    · have hknot : ¬ k ∈ t.map key := by
        intro hk
        rcases List.mem_map.1 hk with ⟨x, hx, hxk⟩
        exact h'.1 x hx (by rw [hxk, hkr])
      rw [if_neg hknot,
        if_pos (show (decide (key r = k)) = true by simpa using hkr),
        if_pos (List.mem_map.2 ⟨r, List.mem_cons.2 (Or.inl rfl), hkr⟩)]
    · rw [if_neg (show ¬ (decide (key r = k)) = true by simpa using hkr)]
      by_cases hk : k ∈ t.map key
      · rcases List.mem_map.1 hk with ⟨x, hx, hxk⟩
        rw [if_pos hk, if_pos (List.mem_map.2 ⟨x, List.mem_cons.2 (Or.inr hx), hxk⟩)]
      · rw [if_neg hk, if_neg (show ¬ k ∈ (r :: t).map key by
          intro hc
          rcases List.mem_map.1 hc with ⟨x, hx, hxk⟩
          rcases List.mem_cons.1 hx with rfl | hx2
          · exact hkr hxk
          · exact hk (List.mem_map.2 ⟨x, hx2, hxk⟩))]

theorem filter_key_len_one {α κ : Type} [DecidableEq κ] (key : α → κ)
    (rs : List α) (k : κ) (hR : (rs.map key).Nodup)
    (hne : ¬ (rs.filter fun r => key r = k) = []) :
    (rs.filter fun r => key r = k).length = 1 := by
  have hcount : (rs.filter fun r => key r = k).length
      = rs.countP (fun r => key r = k) := (List.countP_eq_length_filter _ _).symm
  rw [hcount, countP_key_nodup key rs k hR]
  rcases List.exists_mem_of_ne_nil _ hne with ⟨r, hr⟩
  rcases List.mem_filter.1 hr with ⟨hrin, hrk⟩
  rw [if_pos (List.mem_map.2 ⟨r, hrin, by simpa using hrk⟩)]

theorem countP_or_disjoint {α : Type} (p q : α → Bool) (l : List α)
    (h : ∀ a ∈ l, ¬(p a = true ∧ q a = true)) :
    l.countP (fun a => p a || q a) = l.countP p + l.countP q := by
  induction l with
  | nil => simp
  | cons a t ih =>
    rw [List.countP_cons, List.countP_cons, List.countP_cons,
      ih (fun x hx => h x (List.mem_cons_of_mem a hx))]
    have ha := h a (List.mem_cons.2 (Or.inl rfl))
    by_cases hp : p a = true
    · have hq : ¬ q a = true := fun hq => ha ⟨hp, hq⟩
      simp [hp, hq]
      omega
    · by_cases hq : q a = true
      · simp [hp, hq]
        omega
      · simp [hp, hq]

theorem mergedKey_matchedPairs {α κ : Type} [DecidableEq κ] (key : α → κ)
    (rs : List α) (l : α) (p : Option α × Option α)
    (hp : p ∈ matchedPairs key rs l) : mergedKey key p = some (key l) := by
  unfold matchedPairs at hp
  by_cases hms : ((rs.filter fun r => key r = key l).isEmpty) = true
  · rw [if_pos hms] at hp
    rcases List.mem_cons.1 hp with rfl | hp'
    · rfl
    · simp at hp'
  · rw [if_neg hms] at hp
    rcases List.mem_map.1 hp with ⟨r, _, rfl⟩
    rfl

theorem countP_matchedPairs_key {α κ : Type} [DecidableEq κ] (key : α → κ)
    (rs : List α) (l : α) (k : κ) (hR : (rs.map key).Nodup) :
    (matchedPairs key rs l).countP (fun p => mergedKey key p = some k)
      = if key l = k then 1 else 0 := by
  unfold matchedPairs
  by_cases hms : ((rs.filter fun r => key r = key l).isEmpty) = true
  · rw [if_pos hms]
    by_cases hk : key l = k
    · rw [if_pos hk]
      simp [mergedKey, hk]
    · rw [if_neg hk]
      simp [mergedKey, hk]
  · rw [if_neg hms, List.countP_map]
    have hconst : ∀ r ∈ rs.filter (fun r => key r = key l),
        ((fun p => decide (mergedKey key p = some k)) ∘
          (fun r => ((some l : Option α), some r))) r
          = decide (key l = k) := by
      intro r _
      simp [Function.comp, mergedKey]
    by_cases hk : key l = k
    · rw [if_pos hk]
      have hlen : (rs.filter fun r => key r = key l).length = 1 :=
        filter_key_len_one key rs (key l) hR
          (by simpa [List.isEmpty_iff] using hms)
      calc List.countP _ _
          = List.countP (fun _ => decide (key l = k)) (rs.filter fun r => key r = key l) :=
            List.countP_congr (by intro x hx; rw [hconst x hx])
        _ = 1 := by
            rw [show (decide (key l = k)) = true by simpa using hk]
            simpa using hlen
    · rw [if_neg hk]
      rw [List.countP_eq_zero]
      intro r hr
      rw [hconst r hr]
      simpa using hk

theorem countA_key {α κ : Type} [DecidableEq κ] (key : α → κ) (ls rs : List α)
    (k : κ) (hL : (ls.map key).Nodup) (hR : (rs.map key).Nodup) :
    (ls.flatMap (matchedPairs key rs)).countP (fun p => mergedKey key p = some k)
      = if k ∈ ls.map key then 1 else 0 := by
  induction ls with
  | nil => simp
  | cons l t ih =>
    have h' : (∀ x ∈ t, ¬ key x = key l) ∧ (t.map key).Nodup := by simpa using hL
    rw [List.flatMap_cons, List.countP_append, ih h'.2,
      countP_matchedPairs_key key rs l k hR]
    by_cases hkl : key l = k
    · have hknot : ¬ k ∈ t.map key := by
        intro hk
        rcases List.mem_map.1 hk with ⟨x, hx, hxk⟩
        exact h'.1 x hx (by rw [hxk, hkl])
      rw [if_pos hkl, if_neg hknot,
        if_pos (List.mem_map.2 ⟨l, List.mem_cons.2 (Or.inl rfl), hkl⟩)]
    · rw [if_neg hkl]
      by_cases hk : k ∈ t.map key
      · rcases List.mem_map.1 hk with ⟨x, hx, hxk⟩
        rw [if_pos hk, if_pos (List.mem_map.2 ⟨x, List.mem_cons.2 (Or.inr hx), hxk⟩)]
      · rw [if_neg hk, if_neg (show ¬ k ∈ (l :: t).map key by
          intro hc
          rcases List.mem_map.1 hc with ⟨x, hx, hxk⟩
          rcases List.mem_cons.1 hx with rfl | hx2
          · exact hkl hxk
          · exact hk (List.mem_map.2 ⟨x, hx2, hxk⟩))]

theorem countB_key {α κ : Type} [DecidableEq κ] (key : α → κ) (ls rs : List α)
    (k : κ) (hR : (rs.map key).Nodup) :
    (((rs.filter fun r => ls.all fun l => decide (¬ key l = key r)).map
        fun r => ((none : Option α), some r)).countP
          (fun p => mergedKey key p = some k))
      = if k ∈ rs.map key ∧ ¬ k ∈ ls.map key then 1 else 0 := by
  rw [List.countP_map]
  have hpt : ∀ r : α, ((fun p => decide (mergedKey key p = some k)) ∘
      (fun r => ((none : Option α), some r))) r = decide (key r = k) := by
    intro r
    simp [Function.comp, mergedKey]
  by_cases hkls : k ∈ ls.map key
  · rw [if_neg (by simp [hkls])]
    rw [List.countP_eq_zero]
    intro r hr
    rw [hpt r]
    rcases List.mem_filter.1 hr with ⟨_, hall⟩
    intro hrk
    have hrk' : key r = k := by simpa using hrk
    rcases List.mem_map.1 hkls with ⟨x, hx, hxk⟩
    have := (List.all_eq_true.1 hall) x hx
    simp at this
    exact this (by rw [hxk, hrk'])
  · have hcg : List.countP ((fun p => decide (mergedKey key p = some k)) ∘
        (fun r => ((none : Option α), some r)))
        (rs.filter fun r => ls.all fun l => decide (¬ key l = key r))
        = List.countP (fun r => key r = k)
            (rs.filter fun r => ls.all fun l => decide (¬ key l = key r)) :=
      List.countP_congr (by intro x hx; rw [hpt x])
    rw [hcg, List.countP_filter]
    have hcg2 : List.countP
        (fun r => decide (key r = k) && (ls.all fun l => decide (¬ key l = key r))) rs
        = List.countP (fun r => key r = k) rs := by
      apply List.countP_congr
      intro r _
      constructor
      · intro hb
        simp only [Bool.and_eq_true] at hb
        exact hb.1
      · intro hb
        simp only [Bool.and_eq_true]
        refine ⟨hb, List.all_eq_true.2 ?_⟩
        intro x hx
        have hrk : key r = k := by simpa using hb
        simp only [decide_eq_true_eq]
        intro hxr
        exact hkls (List.mem_map.2 ⟨x, hx, by rw [hxr, hrk]⟩)
    rw [hcg2, countP_key_nodup key rs k hR]
    by_cases hk : k ∈ rs.map key
    · rw [if_pos hk, if_pos ⟨hk, hkls⟩]
    · rw [if_neg hk, if_neg (by simp [hk])]

theorem outerMerge_countKey {α κ : Type} [DecidableEq κ] (key : α → κ)
    (ls rs : List α) (k : κ) (hL : (ls.map key).Nodup)
    (hR : (rs.map key).Nodup) :
    (outerMerge key ls rs).countP (fun p => mergedKey key p = some k)
      = if k ∈ ls.map key ∨ k ∈ rs.map key then 1 else 0 := by
  unfold outerMerge
  rw [List.countP_append, countA_key key ls rs k hL hR, countB_key key ls rs k hR]
  by_cases hkl : k ∈ ls.map key
  · rw [if_pos hkl, if_neg (by simp [hkl]), if_pos (Or.inl hkl)]
  · rw [if_neg hkl]
    by_cases hkr : k ∈ rs.map key
    · rw [if_pos ⟨hkr, hkl⟩, if_pos (Or.inr hkr)]
    · rw [if_neg (by simp [hkr]), if_neg (by simp [hkl, hkr])]

theorem outerMerge_status {α κ : Type} [DecidableEq κ] (key : α → κ)
    (ls rs : List α) (k : κ) (p : Option α × Option α)
    (hp : p ∈ outerMerge key ls rs) (hk : mergedKey key p = some k) :
    statusOf p = if k ∈ ls.map key then
        (if k ∈ rs.map key then "Matched" else "Only in Company1")
      else "Only in Company2" := by
  unfold outerMerge at hp
  rcases List.mem_append.1 hp with hpA | hpB
  · rcases List.mem_flatMap.1 hpA with ⟨l, hl, hpl⟩
    have hkey := mergedKey_matchedPairs key rs l p hpl
    have hkl : key l = k := by
      rw [hkey] at hk
      exact Option.some.injEq _ _ ▸ hk
    unfold matchedPairs at hpl
    by_cases hms : ((rs.filter fun r => key r = key l).isEmpty) = true
    · rw [if_pos hms] at hpl
      rcases List.mem_cons.1 hpl with rfl | hpl'
      · have hknr : ¬ k ∈ rs.map key := by
          intro hkr
          rcases List.mem_map.1 hkr with ⟨r, hr, hrk⟩
          have : rs.filter (fun r => key r = key l) = [] := by
            simpa [List.isEmpty_iff] using hms
          rw [List.filter_eq_nil_iff] at this
          exact this r hr (by simp [hrk, hkl])
        rw [if_pos (List.mem_map.2 ⟨l, hl, hkl⟩), if_neg hknr]
        rfl
      · simp at hpl'
    · rw [if_neg hms] at hpl
      rcases List.mem_map.1 hpl with ⟨r, hr, rfl⟩
      rcases List.mem_filter.1 hr with ⟨hrin, hrk⟩
      have hrk' : key r = key l := by simpa using hrk
      rw [if_pos (List.mem_map.2 ⟨l, hl, hkl⟩),
        if_pos (List.mem_map.2 ⟨r, hrin, by rw [hrk', hkl]⟩)]
      rfl
  · rcases List.mem_map.1 hpB with ⟨r, hr, rfl⟩
    rcases List.mem_filter.1 hr with ⟨hrin, hall⟩
    have hrk : key r = k := by
      simpa [mergedKey] using hk
    have hknl : ¬ k ∈ ls.map key := by
      intro hkl
      rcases List.mem_map.1 hkl with ⟨x, hx, hxk⟩
      have := (List.all_eq_true.1 hall) x hx
      simp only [decide_eq_true_eq] at this
      exact this (by rw [hxk, hrk])
    rw [if_neg hknl]
    rfl

theorem countA_left {α κ : Type} [DecidableEq κ] (key : α → κ) (ls rs : List α)
    (hR : (rs.map key).Nodup) :
    (ls.flatMap (matchedPairs key rs)).countP
        (fun p => statusOf p = "Matched" ∨ statusOf p = "Only in Company1")
      = ls.length := by
  induction ls with
  | nil => simp
  | cons l t ih =>
    rw [List.flatMap_cons, List.countP_append, ih]
    have hone : (matchedPairs key rs l).countP
        (fun p => statusOf p = "Matched" ∨ statusOf p = "Only in Company1") = 1 := by
      unfold matchedPairs
      by_cases hms : ((rs.filter fun r => key r = key l).isEmpty) = true
      · rw [if_pos hms]
        simp [statusOf]
      · rw [if_neg hms, List.countP_map]
        have hlen : (rs.filter fun r => key r = key l).length = 1 :=
          filter_key_len_one key rs (key l) hR
            (by simpa [List.isEmpty_iff] using hms)
        calc List.countP _ _
            = List.countP (fun _ => true) (rs.filter fun r => key r = key l) :=
              List.countP_congr (by intro x hx; simp [Function.comp, statusOf])
          _ = 1 := by simpa using hlen
    rw [hone]
    simp [List.length_cons]
    omega
  
theorem countB_left {α κ : Type} [DecidableEq κ] (key : α → κ) (ls rs : List α) :
    (((rs.filter fun r => ls.all fun l => decide (¬ key l = key r)).map
        fun r => ((none : Option α), some r)).countP
          (fun p => statusOf p = "Matched" ∨ statusOf p = "Only in Company1"))
      = 0 := by
  rw [List.countP_eq_zero]
  intro p hp
  rcases List.mem_map.1 hp with ⟨r, _, rfl⟩
  simp [statusOf]

theorem outerMerge_leftCount {α κ : Type} [DecidableEq κ] (key : α → κ)
    (ls rs : List α) (hR : (rs.map key).Nodup) :
    (outerMerge key ls rs).countP
        (fun p => statusOf p = "Matched" ∨ statusOf p = "Only in Company1")
      = ls.length := by
  unfold outerMerge
  rw [List.countP_append, countA_left key ls rs hR, countB_left key ls rs]
  omega

theorem countA_right {α κ : Type} [DecidableEq κ] (key : α → κ) (ls rs : List α)
    (hL : (ls.map key).Nodup) :
    (ls.flatMap (matchedPairs key rs)).countP
        (fun p => statusOf p = "Matched" ∨ statusOf p = "Only in Company2")
      = rs.countP (fun r => key r ∈ ls.map key) := by
  induction ls with
  | nil => simp
  | cons l t ih =>
    have h' : (∀ x ∈ t, ¬ key x = key l) ∧ (t.map key).Nodup := by simpa using hL
    rw [List.flatMap_cons, List.countP_append, ih h'.2]
    have hml : (matchedPairs key rs l).countP
        (fun p => statusOf p = "Matched" ∨ statusOf p = "Only in Company2")
        = rs.countP (fun r => key r = key l) := by
      unfold matchedPairs
      by_cases hms : ((rs.filter fun r => key r = key l).isEmpty) = true
      · rw [if_pos hms]
        have : rs.countP (fun r => key r = key l) = 0 := by
          rw [List.countP_eq_zero]
          intro r hr
          have hnil : rs.filter (fun r => key r = key l) = [] := by
            simpa [List.isEmpty_iff] using hms
          rw [List.filter_eq_nil_iff] at hnil
          exact hnil r hr
        rw [this]
        simp [statusOf]
      · rw [if_neg hms, List.countP_map]
        calc List.countP ((fun p => decide (statusOf p = "Matched" ∨
                statusOf p = "Only in Company2")) ∘ fun r => ((some l : Option α), some r))
              (rs.filter fun r => key r = key l)
            = List.countP (fun _ => true) (rs.filter fun r => key r = key l) :=
              List.countP_congr (by intro x hx; simp [Function.comp, statusOf])
          _ = (rs.filter fun r => key r = key l).length := by simp
          _ = rs.countP (fun r => key r = key l) :=
              (List.countP_eq_length_filter _ _).symm
    rw [hml]
    have hsplit : rs.countP (fun r => key r ∈ (l :: t).map key)
        = rs.countP (fun r => key r = key l) + rs.countP (fun r => key r ∈ t.map key) := by
      have := countP_or_disjoint (fun r => key r = key l)
        (fun r => key r ∈ t.map key) rs ?hdisj
      · rw [← this]
        apply List.countP_congr
        intro r _
        simp only [List.map_cons, List.mem_cons, Bool.or_eq_true, decide_eq_true_eq]
      case hdisj =>
        intro r _
        rintro ⟨h1, h2⟩
        simp only [decide_eq_true_eq] at h1 h2
        rcases List.mem_map.1 h2 with ⟨x, hx, hxk⟩
        exact h'.1 x hx (by rw [hxk, h1])
    rw [hsplit]

theorem countB_right {α κ : Type} [DecidableEq κ] (key : α → κ) (ls rs : List α) :
    (((rs.filter fun r => ls.all fun l => decide (¬ key l = key r)).map
        fun r => ((none : Option α), some r)).countP
          (fun p => statusOf p = "Matched" ∨ statusOf p = "Only in Company2"))
      = rs.countP (fun r => ¬ key r ∈ ls.map key) := by
  rw [List.countP_map]
  have hpt : List.countP ((fun p => decide (statusOf p = "Matched" ∨
      statusOf p = "Only in Company2")) ∘ (fun r => ((none : Option α), some r)))
      (rs.filter fun r => ls.all fun l => decide (¬ key l = key r))
      = List.countP (fun _ => true)
        (rs.filter fun r => ls.all fun l => decide (¬ key l = key r)) :=
    List.countP_congr (by intro x hx; simp [Function.comp, statusOf])
  rw [hpt]
  have h1 : List.countP (fun _ => true)
      (rs.filter fun r => ls.all fun l => decide (¬ key l = key r))
      = (rs.filter fun r => ls.all fun l => decide (¬ key l = key r)).length := by
    simp
  rw [h1, ← List.countP_eq_length_filter]
  apply List.countP_congr
  intro r _
  simp only [List.all_eq_true, decide_eq_true_eq]
  constructor
  · intro hall hmem
    rcases List.mem_map.1 hmem with ⟨x, hx, hxk⟩
    exact hall x hx hxk
  · intro hnm x hx hxr
    exact hnm (List.mem_map.2 ⟨x, hx, hxr⟩)

theorem outerMerge_rightCount {α κ : Type} [DecidableEq κ] (key : α → κ)
    (ls rs : List α) (hL : (ls.map key).Nodup) :
    (outerMerge key ls rs).countP
        (fun p => statusOf p = "Matched" ∨ statusOf p = "Only in Company2")
      = rs.length := by
  unfold outerMerge
  rw [List.countP_append, countA_right key ls rs hL, countB_right key ls rs]
  have hlen := List.length_eq_countP_add_countP (fun r => key r ∈ ls.map key) rs
  have hco : List.countP (fun r => decide (¬ key r ∈ List.map key ls)) rs
      = List.countP (fun a => decide (¬ (decide (key a ∈ List.map key ls)) = true)) rs := by
    apply List.countP_congr
    intro r _
    simp
  rw [hco]
  omega

theorem outerMerge_left_exists {α κ : Type} [DecidableEq κ] (key : α → κ)
    (ls rs : List α) (l : α) (hl : l ∈ ls) :
    ∃ p ∈ outerMerge key ls rs, p.1 = some l := by
  unfold outerMerge
  by_cases hms : ((rs.filter fun r => key r = key l).isEmpty) = true
  · refine ⟨(some l, none), List.mem_append.2 (Or.inl ?_), rfl⟩
    exact List.mem_flatMap.2 ⟨l, hl, by unfold matchedPairs; rw [if_pos hms]; simp⟩
  · have hne : rs.filter (fun r => key r = key l) ≠ [] := by
      simpa [List.isEmpty_iff] using hms
    rcases List.exists_mem_of_ne_nil _ hne with ⟨r, hr⟩
    refine ⟨(some l, some r), List.mem_append.2 (Or.inl ?_), rfl⟩
    refine List.mem_flatMap.2 ⟨l, hl, ?_⟩
    unfold matchedPairs
    rw [if_neg hms]
    exact List.mem_map.2 ⟨r, hr, rfl⟩

theorem outerMerge_right_exists {α κ : Type} [DecidableEq κ] (key : α → κ)
    (ls rs : List α) (r : α) (hr : r ∈ rs) :
    ∃ p ∈ outerMerge key ls rs, p.2 = some r := by
  unfold outerMerge
  by_cases hmatch : ∃ l ∈ ls, key l = key r
  · rcases hmatch with ⟨l, hl, hlk⟩
    refine ⟨(some l, some r), List.mem_append.2 (Or.inl ?_), rfl⟩
    refine List.mem_flatMap.2 ⟨l, hl, ?_⟩
    unfold matchedPairs
    have hrmem : r ∈ rs.filter (fun x => key x = key l) :=
      List.mem_filter.2 ⟨hr, by simp [hlk]⟩
    rw [if_neg (by
      intro hempty
      rw [List.isEmpty_iff] at hempty
      rw [hempty] at hrmem
      exact absurd hrmem (List.not_mem_nil r))]
    exact List.mem_map.2 ⟨r, hrmem, rfl⟩
  · refine ⟨(none, some r), List.mem_append.2 (Or.inr ?_), rfl⟩
    refine List.mem_map.2 ⟨r, List.mem_filter.2 ⟨hr, ?_⟩, rfl⟩
    simp only [List.all_eq_true, decide_eq_true_eq]
    intro x hx hxr
    exact hmatch ⟨x, hx, hxr⟩

/-- Price relation column of the item match builder: set only where the row is
Matched and the strict/equal comparisons hold; comparisons against a null
price leave the relation null, mirroring NaN comparisons being false. -/
def relOf (p : Option NRow × Option NRow) : Option String :=
  let p1 := p.1.bind NRow.price
  let p2 := p.2.bind NRow.price
  if statusOf p = "Matched" then
    match p1, p2 with
    | some a, some b =>
      if a > b then some "Company1 Higher"
      else if a < b then some "Company1 Lower"
      else some "Same"
    | _, _ => none
  else none

/-- One row of the item match table: both sides (nullable), the match status
and the price relation. -/
structure ItemMatch where
  left : Option NRow
  right : Option NRow
  matchStatus : String
  priceRel : Option String
deriving DecidableEq

/-- Join key of an item match row. -/
def ItemMatch.key (m : ItemMatch) : Option (List Char × List Char) :=
  mergedKey keyOf (m.left, m.right)

/-- Models `build_item_matches`: outer join of the two catalogs on
(vendorKey, productKey), classify each row, and compare prices of matched
rows. -/
def build_item_matches (ls rs : List NRow) : List ItemMatch :=
  (outerMerge keyOf ls rs).map fun p => ⟨p.1, p.2, statusOf p, relOf p⟩

/-- One row of the vendor match table: each source's (vendorName, vendorKey)
pair when present, and the match status. -/
structure VendorMatch where
  left : Option (List Char × List Char)
  right : Option (List Char × List Char)
  matchStatus : String
deriving DecidableEq

/-- Vendor name/key pair of a normalized row, the columns selected by
`build_vendor_index`. -/
def vendorPair (r : NRow) : List Char × List Char := (r.vendorName, r.vendorKey)

/-- Join key of a vendor match row. -/
def VendorMatch.key (m : VendorMatch) : Option (List Char) :=
  mergedKey Prod.snd (m.left, m.right)

/-- Models `build_vendor_index`: select (vendorName, vendorName_clean) pairs,
drop duplicate pairs, outer join on the clean name, classify each row. -/
def build_vendor_index (c1 c2 : List NRow) : List VendorMatch :=
  (outerMerge Prod.snd (dedupFirst (fun x => x) (c1.map vendorPair))
      (dedupFirst (fun x => x) (c2.map vendorPair))).map
    fun p => ⟨p.1, p.2, statusOf p⟩

theorem relOf_iff (p : Option NRow × Option NRow) :
    (relOf p ≠ none ↔ statusOf p = "Matched"
        ∧ p.1.bind NRow.price ≠ none ∧ p.2.bind NRow.price ≠ none)
    ∧ (∀ a b : ℚ, p.1.bind NRow.price = some a → p.2.bind NRow.price = some b →
        statusOf p = "Matched" →
        ((relOf p = some "Company1 Higher" ↔ a > b)
          ∧ (relOf p = some "Company1 Lower" ↔ a < b)
          ∧ (relOf p = some "Same" ↔ a = b))) := by
  constructor
  · unfold relOf
    by_cases hst : statusOf p = "Matched"
    · rw [if_pos hst]
      cases h1 : p.1.bind NRow.price with
      | none => simp [hst]
      | some a =>
        cases h2 : p.2.bind NRow.price with
        | none => simp [hst]
        | some b =>
          simp only [hst, true_and, ne_eq]
          constructor
          · intro _
            exact ⟨by simp, by simp⟩
          · intro _
            by_cases hab : a > b
            · simp [hab]
            · by_cases hab2 : a < b
              · simp [hab, hab2]
              · simp [hab, hab2]
    · rw [if_neg hst]
      simp [hst]
  · intro a b h1 h2 hst
    unfold relOf
    rw [if_pos hst]
    simp only [h1, h2]
    rcases lt_trichotomy a b with hlt | heq | hgt
    · rw [if_neg (by exact not_lt_of_gt hlt), if_pos hlt]
      refine ⟨?_, ?_, ?_⟩
      · simp only [Option.some.injEq]
        constructor
        · intro h
          exact absurd h (by decide)
        · intro h
          exact absurd h (not_lt_of_gt hlt)
      · simp [hlt]
      · simp only [Option.some.injEq]
        constructor
        · intro h
          exact absurd h (by decide)
        · intro h
          exact absurd h (ne_of_lt hlt)
    · subst heq
      rw [if_neg (lt_irrefl a), if_neg (lt_irrefl a)]
      refine ⟨?_, ?_, ?_⟩
      · simp only [Option.some.injEq]
        constructor
        · intro h
          exact absurd h (by decide)
        · intro h
          exact absurd h (lt_irrefl a)
      · simp only [Option.some.injEq]
        constructor
        · intro h
          exact absurd h (by decide)
        · intro h
          exact absurd h (lt_irrefl a)
      · simp
    · rw [if_pos hgt]
      refine ⟨?_, ?_, ?_⟩
      · simp [hgt]
      · simp only [Option.some.injEq]
        constructor
        · intro h
          exact absurd h (by decide)
        · intro h
          exact absurd h (not_lt_of_gt hgt)
      · simp only [Option.some.injEq]
        constructor
        · intro h
          exact absurd h (by decide)
        · intro h
          exact absurd h (ne_of_gt hgt)

/-- Models `rapidfuzz.process.extractOne(query, choices, scorer, score_cutoff)`:
the best-scoring choice (first one on ties) when its score reaches the cutoff,
`none` otherwise. The scorer is the pluggable similarity (token-set ratio in
the source). -/
def extractOne (scorer : List Char → List Char → ℚ) (cutoff : ℚ)
    (q : List Char) : List (List Char) → Option (List Char × ℚ)
  | [] => none
  | c :: cs =>
    match extractOne scorer cutoff q cs with
    | none => if cutoff ≤ scorer q c then some (c, scorer q c) else none
    | some (b, bs) =>
      if cutoff ≤ scorer q c ∧ bs ≤ scorer q c then some (c, scorer q c)
      else some (b, bs)

/-- Alignment of one key value: replaced by the best match when one clears the
cutoff, kept otherwise. -/
def align1 (scorer : List Char → List Char → ℚ) (cutoff : ℚ) (v : List Char)
    (choices : List (List Char)) : List Char :=
  match extractOne scorer cutoff v choices with
  | some (b, _) => b
  | none => v

/-- Models `fuzzy_align_names` from help.py: rewrite the vendor-key and
product-key columns of the source table toward the distinct values of the
target table, one value at a time. -/
def fuzzy_align_names (scorer : List Char → List Char → ℚ) (cutoff : ℚ)
    (c1 c2 : List NRow) : List NRow :=
  let vchoices := dedupFirst (fun x => x) (c2.map NRow.vendorKey)
  let pchoices := dedupFirst (fun x => x) (c2.map NRow.productKey)
  c1.map fun r =>
    { r with vendorKey := align1 scorer cutoff r.vendorKey vchoices
             productKey := align1 scorer cutoff r.productKey pchoices }

theorem extractOne_eq_none_iff (scorer : List Char → List Char → ℚ) (cutoff : ℚ)
    (q : List Char) (choices : List (List Char)) :
    extractOne scorer cutoff q choices = none
      ↔ ∀ c ∈ choices, scorer q c < cutoff := by
  induction choices with
  | nil => simp [extractOne]
  | cons c cs ih =>
    unfold extractOne
    cases hrec : extractOne scorer cutoff q cs with
    | none =>
      dsimp only
      by_cases hc : cutoff ≤ scorer q c
      · rw [if_pos hc]
        constructor
        · intro h
          exact absurd h (by simp)
        · intro h
          exact absurd hc (not_le.2 (h c (List.mem_cons.2 (Or.inl rfl))))
      · rw [if_neg hc]
        constructor
        · intro _ x hx
          rcases List.mem_cons.1 hx with rfl | hx2
          · exact not_le.1 hc
          · exact (ih.1 hrec) x hx2
        · intro _
          rfl
    | some br =>
      rcases br with ⟨b, bs⟩
      dsimp only
      constructor
      · intro h
        by_cases hc : cutoff ≤ scorer q c ∧ bs ≤ scorer q c
        · rw [if_pos hc] at h
          exact absurd h (by simp)
        · rw [if_neg hc] at h
          exact absurd h (by simp)
      · intro h
        have hnone : extractOne scorer cutoff q cs = none := by
          rw [ih]
          intro x hx
          exact h x (List.mem_cons.2 (Or.inr hx))
        rw [hnone] at hrec
        exact absurd hrec (by simp)

theorem extractOne_eq_some (scorer : List Char → List Char → ℚ) (cutoff : ℚ)
    (q : List Char) (choices : List (List Char)) (b : List Char) (bs : ℚ)
    (h : extractOne scorer cutoff q choices = some (b, bs)) :
    b ∈ choices ∧ bs = scorer q b ∧ cutoff ≤ bs
      ∧ ∀ c ∈ choices, scorer q c ≤ bs := by
  induction choices generalizing b bs with
  | nil => simp [extractOne] at h
  | cons c cs ih =>
    unfold extractOne at h
    cases hrec : extractOne scorer cutoff q cs with
    | none =>
      rw [hrec] at h
      dsimp only at h
      by_cases hc : cutoff ≤ scorer q c
      · rw [if_pos hc] at h
        simp only [Option.some.injEq, Prod.mk.injEq] at h
        obtain ⟨rfl, rfl⟩ := h
        refine ⟨List.mem_cons.2 (Or.inl rfl), rfl, hc, ?_⟩
        intro x hx
        rcases List.mem_cons.1 hx with rfl | hx2
        · exact le_refl _
        · exact le_of_lt (lt_of_lt_of_le
            ((extractOne_eq_none_iff scorer cutoff q cs).1 hrec x hx2) hc)
      · rw [if_neg hc] at h
        exact absurd h (by simp)
    | some br =>
      rcases br with ⟨b0, bs0⟩
      rw [hrec] at h
      dsimp only at h
      rcases ih b0 bs0 hrec with ⟨hb0mem, hb0s, hb0c, hb0max⟩
      by_cases hc : cutoff ≤ scorer q c ∧ bs0 ≤ scorer q c
      · rw [if_pos hc] at h
        simp only [Option.some.injEq, Prod.mk.injEq] at h
        obtain ⟨rfl, rfl⟩ := h
        refine ⟨List.mem_cons.2 (Or.inl rfl), rfl, hc.1, ?_⟩
        intro x hx
        rcases List.mem_cons.1 hx with rfl | hx2
        · exact le_refl _
        · exact le_trans (hb0max x hx2) hc.2
      · rw [if_neg hc] at h
        simp only [Option.some.injEq, Prod.mk.injEq] at h
        obtain ⟨rfl, rfl⟩ := h
        refine ⟨List.mem_cons.2 (Or.inr hb0mem), hb0s, hb0c, ?_⟩
        intro x hx
        rcases List.mem_cons.1 hx with rfl | hx2
        · by_cases hcc : cutoff ≤ scorer q x
          · exact (not_le.1 (not_and.1 hc hcc)).le
          · exact le_trans (not_le.1 hcc).le hb0c
        · exact hb0max x hx2

/-- Maximum of a price list, modelling the pandas `max` aggregation over the
non-null prices of a group. -/
def listMax : List ℚ → Option ℚ
  | [] => none
  | q :: t =>
    match listMax t with
    | none => some q
    | some m => some (max q m)

/-- Minimum of a price list, modelling the pandas `min` aggregation over the
non-null prices of a group. -/
def listMin : List ℚ → Option ℚ
  | [] => none
  | q :: t =>
    match listMin t with
    | none => some q
    | some m => some (min q m)

theorem listMax_spec (l : List ℚ) (m : ℚ) (h : listMax l = some m) :
    m ∈ l ∧ ∀ x ∈ l, x ≤ m := by
  induction l generalizing m with
  | nil => simp [listMax] at h
  | cons q t ih =>
    unfold listMax at h
    cases hrec : listMax t with
    | none =>
      rw [hrec] at h
      dsimp only at h
      obtain rfl := Option.some.inj h
      have ht : t = [] := by
        cases t with
        | nil => rfl
        | cons a s =>
          unfold listMax at hrec
          cases hls : listMax s
          · rw [hls] at hrec
            dsimp only at hrec
            exact absurd hrec (by simp)
          · rw [hls] at hrec
            dsimp only at hrec
            exact absurd hrec (by simp)
      subst ht
      exact ⟨List.mem_cons.2 (Or.inl rfl), by simp⟩
    | some m0 =>
      rw [hrec] at h
      dsimp only at h
      obtain rfl := Option.some.inj h
      rcases ih m0 hrec with ⟨hmem, hmax⟩
      constructor
      · rcases max_choice q m0 with hc | hc
        · rw [hc]
          exact List.mem_cons.2 (Or.inl rfl)
        · rw [hc]
          exact List.mem_cons.2 (Or.inr hmem)
      · intro x hx
        rcases List.mem_cons.1 hx with rfl | hx2
        · exact le_max_left _ _
        · exact le_trans (hmax x hx2) (le_max_right _ _)

theorem listMin_spec (l : List ℚ) (m : ℚ) (h : listMin l = some m) :
    m ∈ l ∧ ∀ x ∈ l, m ≤ x := by
  induction l generalizing m with
  | nil => simp [listMin] at h
  | cons q t ih =>
    unfold listMin at h
    cases hrec : listMin t with
    | none =>
      rw [hrec] at h
      dsimp only at h
      obtain rfl := Option.some.inj h
      have ht : t = [] := by
        cases t with
        | nil => rfl
        | cons a s =>
          unfold listMin at hrec
          cases hls : listMin s
          · rw [hls] at hrec
            dsimp only at hrec
            exact absurd hrec (by simp)
          · rw [hls] at hrec
            dsimp only at hrec
            exact absurd hrec (by simp)
      subst ht
      exact ⟨List.mem_cons.2 (Or.inl rfl), by simp⟩
    | some m0 =>
      rw [hrec] at h
      dsimp only at h
      obtain rfl := Option.some.inj h
      rcases ih m0 hrec with ⟨hmem, hmin⟩
      constructor
      · rcases min_choice q m0 with hc | hc
        · rw [hc]
          exact List.mem_cons.2 (Or.inl rfl)
        · rw [hc]
          exact List.mem_cons.2 (Or.inr hmem)
      · intro x hx
        rcases List.mem_cons.1 hx with rfl | hx2
        · exact min_le_left _ _
        · exact le_trans (min_le_right _ _) (hmin x hx2)

theorem listMax_isSome (l : List ℚ) (hne : l ≠ []) : ∃ m, listMax l = some m := by
  cases l with
  | nil => exact absurd rfl hne
  | cons q t =>
    unfold listMax
    cases listMax t with
    | none => exact ⟨q, rfl⟩
    | some m => exact ⟨max q m, rfl⟩

theorem listMin_isSome (l : List ℚ) (hne : l ≠ []) : ∃ m, listMin l = some m := by
  cases l with
  | nil => exact absurd rfl hne
  | cons q t =>
    unfold listMin
    cases listMin t with
    | none => exact ⟨q, rfl⟩
    | some m => exact ⟨min q m, rfl⟩

/-- Non-null prices of the (vendorKey, productKey) group of `df`: the values
that the pandas aggregations `min`, `max` and `nunique` actually see (NaN
being skipped). -/
def nonNullPrices (v k : List Char) (df : List NRow) : List ℚ :=
  (df.filter fun r => r.vendorKey = v ∧ r.productKey = k).filterMap NRow.price

/-- Models the inner `process` of `get_vendor_discounts`: filter the vendor,
group by product key, keep groups with more than one distinct (non-null)
price, and emit (productKey, discounted price = min, original price = max,
discount percent). The source then rounds the percentage to two decimals and
formats it as a string for display; the numeric value is kept here. -/
def processDiscounts (v : List Char) (df : List NRow) :
    List ((List Char) × ℚ × ℚ × ℚ) :=
  let vrows := df.filter fun r => r.vendorKey = v
  let keys := dedupFirst (fun x => x) (vrows.map NRow.productKey)
  keys.filterMap fun k =>
    let ps := (vrows.filter fun r => r.productKey = k).filterMap NRow.price
    if 1 < (dedupFirst (fun x => x) ps).length then
      match listMin ps, listMax ps with
      | some mn, some mx => some (k, mn, mx, (mx - mn) / mx * 100)
      | _, _ => none
    else none

/-- One row of the discount table: the product key and, per source, the
(discounted price, original price, discount percent) triple when that source
has a multi-price history for the product. -/
structure DiscountRow where
  productKey : List Char
  disc1 : Option (ℚ × ℚ × ℚ)
  disc2 : Option (ℚ × ℚ × ℚ)
deriving DecidableEq

/-- Models `get_vendor_discounts`: compute the per-source discount tables and
outer-join them on the product key so a product with a multi-price history in
only one source still appears, with nulls on the absent side. -/
def get_vendor_discounts (v : List Char) (c1 c2 : List NRow) : List DiscountRow :=
  (outerMerge Prod.fst (processDiscounts v c1) (processDiscounts v c2)).map
    fun p =>
      match p with
      | (some e, o2) => ⟨e.1, some e.2, o2.map Prod.snd⟩
      | (none, some e2) => ⟨e2.1, none, some e2.2⟩
      | (none, none) => ⟨[], none, none⟩

/-- Models `get_vendors_with_price_duplicates`: vendors having at least one
(vendorKey, productKey) group with more than one distinct (non-null) price. -/
def get_vendors_with_price_duplicates (df : List NRow) : List (List Char) :=
  let pairs := dedupFirst (fun x => x) (df.map keyOf)
  dedupFirst (fun x => x)
    ((pairs.filter fun p =>
        1 < (dedupFirst (fun x => x) (nonNullPrices p.1 p.2 df)).length).map
      Prod.fst)

theorem mem_dedupFirst_id {κ : Type} [DecidableEq κ] (l : List κ) (k : κ) :
    k ∈ dedupFirst (fun x => x) l ↔ k ∈ l := by
  constructor
  · exact fun h => mem_of_mem_dedupFirstAux _ [] l k h
  · intro hk
    have hchar := dedupFirstAux_filter (fun x : κ => x) k l []
    have hne : l.filter (fun r => r = k) ≠ [] := by
      intro hnil
      rw [List.filter_eq_nil_iff] at hnil
      exact hnil k hk (by simp)
    cases hf : l.filter (fun r => r = k) with
    | nil => exact absurd hf hne
    | cons x xs =>
      have hx : x ∈ l.filter (fun r => r = k) := hf ▸ List.mem_cons.2 (Or.inl rfl)
      have hxk : x = k := by simpa using (List.mem_filter.1 hx).2
      have : x ∈ (dedupFirst (fun x => x) l).filter (fun r => r = k) := by
        unfold dedupFirst
        rw [hchar, if_neg (List.not_mem_nil k), hf]
        simp
      subst hxk
      exact (List.mem_filter.1 this).1

theorem dedupFirstAux_nodup {α κ : Type} [DecidableEq κ] (key : α → κ)
    (l : List α) (seen : List κ) :
    ((dedupFirstAux key seen l).map key).Nodup
      ∧ ∀ k ∈ (dedupFirstAux key seen l).map key, ¬ k ∈ seen := by
  induction l generalizing seen with
  | nil => simp [dedupFirstAux]
  | cons r rs ih =>
    unfold dedupFirstAux
    by_cases h : key r ∈ seen
    · rw [if_pos h]
      exact ih seen
    · rw [if_neg h]
      rcases ih (key r :: seen) with ⟨hnd, hinv⟩
      refine ⟨?_, ?_⟩
      · simp only [List.map_cons, List.nodup_cons]
        refine ⟨?_, hnd⟩
        intro hc
        exact hinv _ hc (List.mem_cons.2 (Or.inl rfl))
      · intro k hk
        rw [List.map_cons, List.mem_cons] at hk
        rcases hk with rfl | hk2
        · exact h
        · intro hks
          exact hinv k hk2 (List.mem_cons.2 (Or.inr hks))

theorem dedupFirst_nodup {α κ : Type} [DecidableEq κ] (key : α → κ) (l : List α) :
    ((dedupFirst key l).map key).Nodup :=
  (dedupFirstAux_nodup key l []).1

theorem mem_filterMap_fst {κ β : Type} (f : κ → Option ((κ × β)))
    (hf : ∀ k e, f k = some e → e.1 = k) (keys : List κ) (x : κ)
    (hx : x ∈ (keys.filterMap f).map Prod.fst) : x ∈ keys := by
  rcases List.mem_map.1 hx with ⟨e, he, hex⟩
  rcases List.mem_filterMap.1 he with ⟨k, hk, hfk⟩
  rw [← hex, hf k e hfk]
  exact hk

theorem filterMap_fst_nodup {κ β : Type} [DecidableEq κ] (f : κ → Option (κ × β))
    (hf : ∀ k e, f k = some e → e.1 = k) (keys : List κ) (hnd : keys.Nodup) :
    ((keys.filterMap f).map Prod.fst).Nodup := by
  induction keys with
  | nil => simp
  | cons k ks ih =>
    rcases List.nodup_cons.1 hnd with ⟨hknot, hnd2⟩
    rw [List.filterMap_cons]
    cases hfk : f k with
    | none => exact ih hnd2
    | some e =>
      simp only [List.map_cons, List.nodup_cons]
      refine ⟨?_, ih hnd2⟩
      intro hc
      rw [hf k e hfk] at hc
      exact hknot (mem_filterMap_fst f hf ks k hc)

theorem group_prices_eq (v k : List Char) (df : List NRow) :
    (((df.filter fun r => r.vendorKey = v).filter
        fun r => r.productKey = k).filterMap NRow.price)
      = nonNullPrices v k df := by
  unfold nonNullPrices
  rw [List.filter_filter]
  congr 1
  apply List.filter_congr
  intro r _
  by_cases h1 : r.vendorKey = v <;> by_cases h2 : r.productKey = k <;>
    simp [h1, h2]

theorem processDiscounts_entry (v : List Char) (df : List NRow)
    (e : (List Char) × ℚ × ℚ × ℚ) (he : e ∈ processDiscounts v df) :
    1 < (dedupFirst (fun x => x) (nonNullPrices v e.1 df)).length
    ∧ listMin (nonNullPrices v e.1 df) = some e.2.1
    ∧ listMax (nonNullPrices v e.1 df) = some e.2.2.1
    ∧ e.2.2.2 = (e.2.2.1 - e.2.1) / e.2.2.1 * 100 := by
  unfold processDiscounts at he
  rcases List.mem_filterMap.1 he with ⟨k, hk, hfk⟩
  rw [group_prices_eq v k df] at hfk
  by_cases hlen : 1 < (dedupFirst (fun x => x) (nonNullPrices v k df)).length
  · rw [if_pos hlen] at hfk
    cases hmn : listMin (nonNullPrices v k df) with
    | none =>
      rw [hmn] at hfk
      simp at hfk
    | some mn =>
      cases hmx : listMax (nonNullPrices v k df) with
      | none =>
        rw [hmn, hmx] at hfk
        simp at hfk
      | some mx =>
        rw [hmn, hmx] at hfk
        dsimp only at hfk
        obtain rfl := (Option.some.inj hfk).symm
        exact ⟨hlen, hmn, hmx, rfl⟩
  · rw [if_neg hlen] at hfk
    exact absurd hfk (by simp)

theorem processDiscounts_exists (v k : List Char) (df : List NRow)
    (hlen : 1 < (dedupFirst (fun x => x) (nonNullPrices v k df)).length) :
    ∃ e ∈ processDiscounts v df, e.1 = k := by
  have hne : nonNullPrices v k df ≠ [] := by
    intro hnil
    rw [hnil] at hlen
    simp [dedupFirst, dedupFirstAux] at hlen
  rcases List.exists_mem_of_ne_nil _ hne with ⟨q, hq⟩
  unfold nonNullPrices at hq
  rcases List.mem_filterMap.1 hq with ⟨r, hr, hrq⟩
  rcases List.mem_filter.1 hr with ⟨hrdf, hrvk⟩
  have hrvk' : r.vendorKey = v ∧ r.productKey = k := by simpa using hrvk
  have hkmem : k ∈ dedupFirst (fun x => x)
      ((df.filter fun r => r.vendorKey = v).map NRow.productKey) := by
    rw [mem_dedupFirst_id]
    exact List.mem_map.2 ⟨r, List.mem_filter.2 ⟨hrdf, by simp [hrvk'.1]⟩, hrvk'.2⟩
  rcases listMin_isSome _ hne with ⟨mn, hmn⟩
  rcases listMax_isSome _ hne with ⟨mx, hmx⟩
  refine ⟨(k, mn, mx, (mx - mn) / mx * 100), ?_, rfl⟩
  unfold processDiscounts
  apply List.mem_filterMap.2
  refine ⟨k, hkmem, ?_⟩
  rw [group_prices_eq v k df, if_pos hlen, hmn, hmx]

theorem processDiscounts_keys_nodup (v : List Char) (df : List NRow) :
    ((processDiscounts v df).map Prod.fst).Nodup := by
  unfold processDiscounts
  apply filterMap_fst_nodup
  · intro k e hfk
    by_cases hlen : 1 < (dedupFirst (fun x => x)
        (((df.filter fun r => r.vendorKey = v).filter
          fun r => r.productKey = k).filterMap NRow.price)).length
    · rw [if_pos hlen] at hfk
      cases hmn : listMin (((df.filter fun r => r.vendorKey = v).filter
          fun r => r.productKey = k).filterMap NRow.price) with
      | none =>
        rw [hmn] at hfk
        simp at hfk
      | some mn =>
        cases hmx : listMax (((df.filter fun r => r.vendorKey = v).filter
            fun r => r.productKey = k).filterMap NRow.price) with
        | none =>
          rw [hmn, hmx] at hfk
          simp at hfk
        | some mx =>
          rw [hmn, hmx] at hfk
          dsimp only at hfk
          obtain rfl := (Option.some.inj hfk).symm
          rfl
    · rw [if_neg hlen] at hfk
      exact absurd hfk (by simp)
  · have := dedupFirst_nodup (fun x : List Char => x)
      ((df.filter fun r => r.vendorKey = v).map NRow.productKey)
    simpa using this

theorem outerMerge_shape {α κ : Type} [DecidableEq κ] (key : α → κ)
    (ls rs : List α) (p : Option α × Option α) (hp : p ∈ outerMerge key ls rs) :
    (∃ l, p.1 = some l) ∨ (p.1 = none ∧ ∃ r, p.2 = some r) := by
  unfold outerMerge at hp
  rcases List.mem_append.1 hp with hpA | hpB
  · rcases List.mem_flatMap.1 hpA with ⟨l, _, hpl⟩
    unfold matchedPairs at hpl
    by_cases hms : ((rs.filter fun r => key r = key l).isEmpty) = true
    · rw [if_pos hms] at hpl
      rcases List.mem_cons.1 hpl with rfl | hpl2
      · exact Or.inl ⟨l, rfl⟩
      · simp at hpl2
    · rw [if_neg hms] at hpl
      rcases List.mem_map.1 hpl with ⟨r, _, rfl⟩
      exact Or.inl ⟨l, rfl⟩
  · rcases List.mem_map.1 hpB with ⟨r, _, rfl⟩
    exact Or.inr ⟨rfl, r, rfl⟩

theorem outerMerge_sides {α κ : Type} [DecidableEq κ] (key : α → κ)
    (ls rs : List α) (p : Option α × Option α) (hp : p ∈ outerMerge key ls rs) :
    (∀ l, p.1 = some l → l ∈ ls) ∧ (∀ r, p.2 = some r → r ∈ rs)
    ∧ (∀ l r, p.1 = some l → p.2 = some r → key r = key l) := by
  unfold outerMerge at hp
  rcases List.mem_append.1 hp with hpA | hpB
  · rcases List.mem_flatMap.1 hpA with ⟨l, hl, hpl⟩
    unfold matchedPairs at hpl
    by_cases hms : ((rs.filter fun r => key r = key l).isEmpty) = true
    · rw [if_pos hms] at hpl
      rcases List.mem_cons.1 hpl with rfl | hpl2
      · refine ⟨?_, ?_, ?_⟩
        · intro l2 hl2
          obtain rfl := Option.some.inj hl2
          exact hl
        · intro r hr
          exact absurd hr (by simp)
        · intro l2 r hl2 hr
          exact absurd hr (by simp)
      · simp at hpl2
    · rw [if_neg hms] at hpl
      rcases List.mem_map.1 hpl with ⟨r, hr, rfl⟩
      rcases List.mem_filter.1 hr with ⟨hrin, hrk⟩
      refine ⟨?_, ?_, ?_⟩
      · intro l2 hl2
        obtain rfl := Option.some.inj hl2
        exact hl
      · intro r2 hr2
        obtain rfl := Option.some.inj hr2
        exact hrin
      · intro l2 r2 hl2 hr2
        obtain rfl := Option.some.inj hl2
        obtain rfl := Option.some.inj hr2
        simpa using hrk
  · rcases List.mem_map.1 hpB with ⟨r, hr, rfl⟩
    rcases List.mem_filter.1 hr with ⟨hrin, _⟩
    refine ⟨?_, ?_, ?_⟩
    · intro l hl
      exact absurd hl (by simp)
    · intro r2 hr2
      obtain rfl := Option.some.inj hr2
      exact hrin
    · intro l r2 hl _
      exact absurd hl (by simp)

theorem optLeDesc_none_some (b : ℚ) : optLeDesc none (some b) = false := rfl

theorem optLeAsc_none_some (b : ℚ) : optLeAsc none (some b) = false := rfl

theorem optLeDesc_some_some (q b : ℚ) :
    optLeDesc (some q) (some b) = true ↔ b ≤ q := by
  simp [optLeDesc]

theorem optLeAsc_some_some (q b : ℚ) :
    optLeAsc (some q) (some b) = true ↔ q ≤ b := by
  simp [optLeAsc]

theorem groupKey_eq (df : List NRow) (r : NRow) :
    ((df.filter fun x => keyOf x = keyOf r).filterMap NRow.price)
      = nonNullPrices r.vendorKey r.productKey df := by
  unfold nonNullPrices
  congr 1
  apply List.filter_congr
  intro x _
  unfold keyOf
  by_cases h1 : x.vendorKey = r.vendorKey <;>
    by_cases h2 : x.productKey = r.productKey <;>
    simp [Prod.ext_iff, h1, h2]

theorem dedup_price_minmax (pLe : Option ℚ → Option ℚ → Bool)
    (hrefl : ∀ p, pLe p p = true)
    (htrans : ∀ p q r, pLe p q = true → pLe q r = true → pLe p r = true)
    (htotal : ∀ p q, pLe p q = true ∨ pLe q p = true)
    (P : ℚ → ℚ → Prop)
    (hns : ∀ b, pLe none (some b) = false)
    (hss : ∀ q b, pLe (some q) (some b) = true ↔ P b q)
    (df : List NRow) (r : NRow)
    (hr : r ∈ dedupFirst keyOf (sortRows (rowLe pLe) df)) :
    (r.price = none ↔ nonNullPrices r.vendorKey r.productKey df = [])
    ∧ ∀ q, r.price = some q →
        q ∈ nonNullPrices r.vendorKey r.productKey df
        ∧ ∀ x ∈ nonNullPrices r.vendorKey r.productKey df, P x q := by
  rcases dedup_spec pLe hrefl htrans htotal df (keyOf r) with ⟨_, hmem, hmin⟩
  have hrdf : r ∈ df := hmem r hr
  constructor
  · constructor
    · intro hnone
      rw [← groupKey_eq, List.filterMap_eq_nil_iff]
      intro x hx
      rcases List.mem_filter.1 hx with ⟨hxdf, hxk⟩
      have hle := hmin r hr x hxdf (by simpa using hxk)
      rw [hnone] at hle
      cases hxp : x.price with
      | none => rfl
      | some b =>
        rw [hxp, hns b] at hle
        exact absurd hle Bool.false_ne_true
    · intro hnil
      rw [← groupKey_eq, List.filterMap_eq_nil_iff] at hnil
      exact hnil r (List.mem_filter.2 ⟨hrdf, by simp⟩)
  · intro q hq
    constructor
    · rw [← groupKey_eq]
      exact List.mem_filterMap.2 ⟨r, List.mem_filter.2 ⟨hrdf, by simp⟩, hq⟩
    · intro x hx
      rw [← groupKey_eq] at hx
      rcases List.mem_filterMap.1 hx with ⟨y, hy, hyp⟩
      rcases List.mem_filter.1 hy with ⟨hydf, hyk⟩
      have hle := hmin r hr y hydf (by simpa using hyk)
      rw [hq, hyp] at hle
      exact (hss q x).1 hle

/-- C1: deduplication under the MaxPrice policy (`deduplicate_max_price`) and
the MinPrice policy (`deduplicate_min_price`) returns exactly one row per
distinct (vendorKey, productKey) pair of the input; the kept price is the
true maximum (respectively minimum) of the non-null prices of the group
whenever one exists, and a null-priced row is kept only when the whole group
has null prices. -/
theorem claim_C1_dedup_minmax (df : List NRow) (k : List Char × List Char) :
    ((deduplicate_max_price df).countP (fun r => keyOf r = k)
        = if k ∈ df.map keyOf then 1 else 0)
    ∧ (∀ r ∈ deduplicate_max_price df,
        (r.price = none ↔ nonNullPrices r.vendorKey r.productKey df = [])
          ∧ ∀ q, r.price = some q →
              q ∈ nonNullPrices r.vendorKey r.productKey df
              ∧ ∀ x ∈ nonNullPrices r.vendorKey r.productKey df, x ≤ q)
    ∧ ((deduplicate_min_price df).countP (fun r => keyOf r = k)
        = if k ∈ df.map keyOf then 1 else 0)
    ∧ (∀ r ∈ deduplicate_min_price df,
        (r.price = none ↔ nonNullPrices r.vendorKey r.productKey df = [])
          ∧ ∀ q, r.price = some q →
              q ∈ nonNullPrices r.vendorKey r.productKey df
              ∧ ∀ x ∈ nonNullPrices r.vendorKey r.productKey df, q ≤ x) := by
  refine ⟨?_, ?_, ?_, ?_⟩
  · exact (dedup_spec optLeDesc optLeDesc_refl optLeDesc_trans optLeDesc_total df k).1
  · intro r hr
    exact dedup_price_minmax optLeDesc optLeDesc_refl optLeDesc_trans
      optLeDesc_total (fun x q => x ≤ q) optLeDesc_none_some optLeDesc_some_some
      df r hr
  · exact (dedup_spec optLeAsc optLeAsc_refl optLeAsc_trans optLeAsc_total df k).1
  · intro r hr
    exact dedup_price_minmax optLeAsc optLeAsc_refl optLeAsc_trans
      optLeAsc_total (fun x q => q ≤ x) optLeAsc_none_some optLeAsc_some_some
      df r hr

/-- Concrete rows used by the deduplication witness. -/
def rowA : NRow := ⟨("V").data, ("v").data, ("p").data, some 10⟩

/-- Second concrete row of the witness group (lower price). -/
def rowB : NRow := ⟨("V").data, ("v").data, ("p").data, some 8⟩

/-- Third concrete row of the witness group (null price). -/
def rowC : NRow := ⟨("V").data, ("v").data, ("p").data, none⟩

/-- Witness table: one key group with prices 8, null, 10. -/
def dfC1 : List NRow := [rowB, rowC, rowA]

theorem claim_C1_witness :
    ((deduplicate_max_price dfC1).countP
        (fun r => keyOf r = (("v").data, ("p").data)) = 1)
    ∧ (∀ x ∈ nonNullPrices (("v").data) (("p").data) dfC1, x ≤ 10)
    ∧ ((deduplicate_min_price dfC1).countP
        (fun r => keyOf r = (("v").data, ("p").data)) = 1)
    ∧ (∀ x ∈ nonNullPrices (("v").data) (("p").data) dfC1, 8 ≤ x) := by
  have h := claim_C1_dedup_minmax dfC1 ((("v").data), (("p").data))
  refine ⟨?_, ?_, ?_, ?_⟩
  · rw [h.1, if_pos (by decide)]
  · exact ((h.2.1 rowA (by decide)).2 10 rfl).2
  · rw [h.2.2.1, if_pos (by decide)]
  · exact ((h.2.2.2 rowB (by decide)).2 8 rfl).2

theorem dedup_length_eq_of_mem_iff {κ : Type} [DecidableEq κ] (l1 l2 : List κ)
    (h : ∀ x, x ∈ l1 ↔ x ∈ l2) : l1.dedup.length = l2.dedup.length := by
  apply List.Perm.length_eq
  rw [List.perm_ext_iff_of_nodup (List.nodup_dedup l1) (List.nodup_dedup l2)]
  intro a
  rw [List.mem_dedup, List.mem_dedup]
  exact h a

/-- C2: the Match Builder performs a full outer join and classifies each row;
with deduplicated inputs every distinct key of either input lands in exactly
one bucket, with the expected bucket, and the OnlyInSource1 + Matched rows
count the left distinct keys (symmetrically on the right); likewise for the
vendor-level index. -/
theorem claim_C2_join_classification (ls rs c1 c2 : List NRow)
    (hL : (ls.map keyOf).Nodup) (hR : (rs.map keyOf).Nodup)
    (hVL : ((dedupFirst (fun x => x) (c1.map vendorPair)).map Prod.snd).Nodup)
    (hVR : ((dedupFirst (fun x => x) (c2.map vendorPair)).map Prod.snd).Nodup) :
    (∀ k : List Char × List Char,
      ((k ∈ ls.map keyOf ∨ k ∈ rs.map keyOf) →
        (build_item_matches ls rs).countP (fun m => m.key = some k) = 1)
      ∧ (¬(k ∈ ls.map keyOf ∨ k ∈ rs.map keyOf) →
        (build_item_matches ls rs).countP (fun m => m.key = some k) = 0)
      ∧ ∀ m ∈ build_item_matches ls rs, m.key = some k →
          (k ∈ ls.map keyOf → k ∈ rs.map keyOf → m.matchStatus = "Matched")
          ∧ (k ∈ ls.map keyOf → ¬ k ∈ rs.map keyOf →
              m.matchStatus = "Only in Company1")
          ∧ (¬ k ∈ ls.map keyOf → m.matchStatus = "Only in Company2"))
    ∧ ((build_item_matches ls rs).countP
          (fun m => m.matchStatus = "Matched" ∨ m.matchStatus = "Only in Company1")
        = (ls.map keyOf).dedup.length)
    ∧ ((build_item_matches ls rs).countP
          (fun m => m.matchStatus = "Matched" ∨ m.matchStatus = "Only in Company2")
        = (rs.map keyOf).dedup.length)
    ∧ (∀ k : List Char,
      ((k ∈ c1.map (fun r => r.vendorKey) ∨ k ∈ c2.map (fun r => r.vendorKey)) →
        (build_vendor_index c1 c2).countP (fun m => m.key = some k) = 1)
      ∧ (¬(k ∈ c1.map (fun r => r.vendorKey) ∨ k ∈ c2.map (fun r => r.vendorKey)) →
        (build_vendor_index c1 c2).countP (fun m => m.key = some k) = 0)
      ∧ ∀ m ∈ build_vendor_index c1 c2, m.key = some k →
          (k ∈ c1.map (fun r => r.vendorKey) → k ∈ c2.map (fun r => r.vendorKey) →
              m.matchStatus = "Matched")
          ∧ (k ∈ c1.map (fun r => r.vendorKey) → ¬ k ∈ c2.map (fun r => r.vendorKey) →
              m.matchStatus = "Only in Company1")
          ∧ (¬ k ∈ c1.map (fun r => r.vendorKey) → m.matchStatus = "Only in Company2"))
    ∧ ((build_vendor_index c1 c2).countP
          (fun m => m.matchStatus = "Matched" ∨ m.matchStatus = "Only in Company1")
        = (c1.map (fun r => r.vendorKey)).dedup.length)
    ∧ ((build_vendor_index c1 c2).countP
          (fun m => m.matchStatus = "Matched" ∨ m.matchStatus = "Only in Company2")
        = (c2.map (fun r => r.vendorKey)).dedup.length) := by
  have hmemv1 : ∀ x, x ∈ (dedupFirst (fun y => y) (c1.map vendorPair)).map Prod.snd
      ↔ x ∈ c1.map (fun r => r.vendorKey) := by
    intro x
    simp only [List.mem_map]
    constructor
    · rintro ⟨p, hp, rfl⟩
      rcases List.mem_map.1 ((mem_dedupFirst_id _ p).1 hp) with ⟨r, hr, rfl⟩
      exact ⟨r, hr, rfl⟩
    · rintro ⟨r, hr, rfl⟩
      exact ⟨vendorPair r, (mem_dedupFirst_id _ _).2 (List.mem_map.2 ⟨r, hr, rfl⟩), rfl⟩
  have hmemv2 : ∀ x, x ∈ (dedupFirst (fun y => y) (c2.map vendorPair)).map Prod.snd
      ↔ x ∈ c2.map (fun r => r.vendorKey) := by
    intro x
    simp only [List.mem_map]
    constructor
    · rintro ⟨p, hp, rfl⟩
      rcases List.mem_map.1 ((mem_dedupFirst_id _ p).1 hp) with ⟨r, hr, rfl⟩
      exact ⟨r, hr, rfl⟩
    · rintro ⟨r, hr, rfl⟩
      exact ⟨vendorPair r, (mem_dedupFirst_id _ _).2 (List.mem_map.2 ⟨r, hr, rfl⟩), rfl⟩
  have hckey : ∀ k : List Char × List Char,
      (build_item_matches ls rs).countP (fun m => m.key = some k)
        = (outerMerge keyOf ls rs).countP (fun p => mergedKey keyOf p = some k) := by
    intro k
    unfold build_item_matches
    rw [List.countP_map]
    exact List.countP_congr (by intro p _; rcases p with ⟨a, b⟩; exact Iff.rfl)
  have hcst : ∀ s1 s2 : String,
      (build_item_matches ls rs).countP
          (fun m => m.matchStatus = s1 ∨ m.matchStatus = s2)
        = (outerMerge keyOf ls rs).countP
          (fun p => statusOf p = s1 ∨ statusOf p = s2) := by
    intro s1 s2
    unfold build_item_matches
    rw [List.countP_map]
    exact List.countP_congr (by intro p _; rcases p with ⟨a, b⟩; exact Iff.rfl)
  have hvkey : ∀ k : List Char,
      (build_vendor_index c1 c2).countP (fun m => m.key = some k)
        = (outerMerge Prod.snd (dedupFirst (fun x => x) (c1.map vendorPair))
            (dedupFirst (fun x => x) (c2.map vendorPair))).countP
          (fun p => mergedKey Prod.snd p = some k) := by
    intro k
    unfold build_vendor_index
    rw [List.countP_map]
    exact List.countP_congr (by intro p _; rcases p with ⟨a, b⟩; exact Iff.rfl)
  have hvst : ∀ s1 s2 : String,
      (build_vendor_index c1 c2).countP
          (fun m => m.matchStatus = s1 ∨ m.matchStatus = s2)
        = (outerMerge Prod.snd (dedupFirst (fun x => x) (c1.map vendorPair))
            (dedupFirst (fun x => x) (c2.map vendorPair))).countP
          (fun p => statusOf p = s1 ∨ statusOf p = s2) := by
    intro s1 s2
    unfold build_vendor_index
    rw [List.countP_map]
    exact List.countP_congr (by intro p _; rcases p with ⟨a, b⟩; exact Iff.rfl)
  refine ⟨?_, ?_, ?_, ?_, ?_, ?_⟩
  · intro k
    refine ⟨?_, ?_, ?_⟩
    · intro hmem
      rw [hckey k, outerMerge_countKey keyOf ls rs k hL hR, if_pos hmem]
    · intro hmem
      rw [hckey k, outerMerge_countKey keyOf ls rs k hL hR, if_neg hmem]
    · intro m hm hk
      rcases List.mem_map.1 hm with ⟨p, hp, rfl⟩
      have hk2 : mergedKey keyOf p = some k := by
        rcases p with ⟨a, b⟩
        exact hk
      have hst := outerMerge_status keyOf ls rs k p hp hk2
      have hms : (⟨p.1, p.2, statusOf p, relOf p⟩ : ItemMatch).matchStatus
          = statusOf p := rfl
      refine ⟨?_, ?_, ?_⟩
      · intro h1 h2
        rw [hms, hst, if_pos h1, if_pos h2]
      · intro h1 h2
        rw [hms, hst, if_pos h1, if_neg h2]
      · intro h1
        rw [hms, hst, if_neg h1]
  · rw [hcst "Matched" "Only in Company1",
      outerMerge_leftCount keyOf ls rs hR, List.dedup_eq_self.2 hL, List.length_map]
  · rw [hcst "Matched" "Only in Company2",
      outerMerge_rightCount keyOf ls rs hL, List.dedup_eq_self.2 hR, List.length_map]
  · intro k
    refine ⟨?_, ?_, ?_⟩
    · intro hmem
      rw [hvkey k, outerMerge_countKey Prod.snd _ _ k hVL hVR,
        if_pos (by rw [propext (hmemv1 k), propext (hmemv2 k)]; exact hmem)]
    · intro hmem
      rw [hvkey k, outerMerge_countKey Prod.snd _ _ k hVL hVR,
        if_neg (by rw [propext (hmemv1 k), propext (hmemv2 k)]; exact hmem)]
    · intro m hm hk
      rcases List.mem_map.1 hm with ⟨p, hp, rfl⟩
      have hk2 : mergedKey Prod.snd p = some k := by
        rcases p with ⟨a, b⟩
        exact hk
      have hst := outerMerge_status Prod.snd _ _ k p hp hk2
      have hms : (⟨p.1, p.2, statusOf p⟩ : VendorMatch).matchStatus = statusOf p := rfl
      refine ⟨?_, ?_, ?_⟩
      · intro h1 h2
        rw [hms, hst, if_pos ((hmemv1 k).2 h1), if_pos ((hmemv2 k).2 h2)]
      · intro h1 h2
        rw [hms, hst, if_pos ((hmemv1 k).2 h1),
          if_neg (fun hc => h2 ((hmemv2 k).1 hc))]
      · intro h1
        rw [hms, hst, if_neg (fun hc => h1 ((hmemv1 k).1 hc))]
  · rw [hvst "Matched" "Only in Company1", outerMerge_leftCount Prod.snd _ _ hVR]
    calc (dedupFirst (fun x => x) (c1.map vendorPair)).length
        = ((dedupFirst (fun x => x) (c1.map vendorPair)).map Prod.snd).length := by
          rw [List.length_map]
      _ = ((dedupFirst (fun x => x) (c1.map vendorPair)).map Prod.snd).dedup.length := by
          rw [List.dedup_eq_self.2 hVL]
      _ = (c1.map (fun r => r.vendorKey)).dedup.length :=
          dedup_length_eq_of_mem_iff _ _ hmemv1
  · rw [hvst "Matched" "Only in Company2", outerMerge_rightCount Prod.snd _ _ hVL]
    calc (dedupFirst (fun x => x) (c2.map vendorPair)).length
        = ((dedupFirst (fun x => x) (c2.map vendorPair)).map Prod.snd).length := by
          rw [List.length_map]
      _ = ((dedupFirst (fun x => x) (c2.map vendorPair)).map Prod.snd).dedup.length := by
          rw [List.dedup_eq_self.2 hVR]
      _ = (c2.map (fun r => r.vendorKey)).dedup.length :=
          dedup_length_eq_of_mem_iff _ _ hmemv2

/-- Left witness table for the join claims. -/
def lsC2 : List NRow := [⟨("A").data, ("a").data, ("p").data, some 2⟩]

/-- Right witness table for the join claims. -/
def rsC2 : List NRow :=
  [⟨("B").data, ("a").data, ("p").data, some 3⟩,
   ⟨("B").data, ("b").data, ("q").data, none⟩]

theorem claim_C2_witness :
    ((build_item_matches lsC2 rsC2).countP
        (fun m => m.key = some ((("a").data), (("p").data))) = 1)
    ∧ ((build_item_matches lsC2 rsC2).countP
        (fun m => m.matchStatus = "Matched" ∨ m.matchStatus = "Only in Company1") = 1)
    ∧ ((build_item_matches lsC2 rsC2).countP
        (fun m => m.matchStatus = "Matched" ∨ m.matchStatus = "Only in Company2") = 2) := by
  have h := claim_C2_join_classification lsC2 rsC2 lsC2 rsC2
    (by decide) (by decide) (by decide) (by decide)
  refine ⟨?_, ?_, ?_⟩
  · exact (h.1 ((("a").data), (("p").data))).1 (by decide)
  · rw [h.2.1]
    decide
  · rw [h.2.2.1]
    decide

/-- C3: in every `build_item_matches` row, priceRelation is non-null exactly
when the row is Matched with both prices non-null, and on such rows exactly
one of the three verdicts holds, matching the exact numeric comparison. -/
theorem claim_C3_price_relation (ls rs : List NRow) (m : ItemMatch)
    (hm : m ∈ build_item_matches ls rs) :
    (m.priceRel ≠ none ↔ m.matchStatus = "Matched"
        ∧ m.left.bind NRow.price ≠ none ∧ m.right.bind NRow.price ≠ none)
    ∧ (∀ a b : ℚ, m.left.bind NRow.price = some a →
        m.right.bind NRow.price = some b → m.matchStatus = "Matched" →
        ((m.priceRel = some ("Company1 Higher") ↔ a > b)
          ∧ (m.priceRel = some ("Company1 Lower") ↔ a < b)
          ∧ (m.priceRel = some ("Same") ↔ a = b)
          ∧ (m.priceRel = some ("Company1 Higher")
              ∨ m.priceRel = some ("Company1 Lower")
              ∨ m.priceRel = some ("Same")))) := by
  rcases List.mem_map.1 hm with ⟨p, _, rfl⟩
  have hrel := relOf_iff p
  constructor
  · exact hrel.1
  · intro a b ha hb hst
    rcases hrel.2 a b ha hb hst with ⟨hH, hLo, hS⟩
    refine ⟨hH, hLo, hS, ?_⟩
    rcases lt_trichotomy a b with hlt | heq | hgt
    · exact Or.inr (Or.inl (hLo.2 hlt))
    · exact Or.inr (Or.inr (hS.2 heq))
    · exact Or.inl (hH.2 hgt)

/-- Left row of the price-relation witness. -/
def lC3 : NRow := ⟨("A").data, ("a").data, ("p").data, some 3⟩

/-- Right row of the price-relation witness. -/
def rC3 : NRow := ⟨("B").data, ("a").data, ("p").data, some 2⟩

/-- Matched row produced for the price-relation witness. -/
def mC3 : ItemMatch :=
  ⟨some lC3, some rC3, ("Matched"), some (("Company1 Higher"))⟩

theorem claim_C3_witness :
    mC3.priceRel = some ("Company1 Higher") ∧ mC3.priceRel ≠ none := by
  have h := claim_C3_price_relation [lC3] [rC3] mC3 (by decide)
  constructor
  · exact ((h.2 3 2 (by decide) (by decide) rfl).1).2 (by norm_num)
  · exact h.1.2 ⟨rfl, by decide, by decide⟩

/-- C4 counterexample: the help.py normalizer does not collapse internal
whitespace, so on the vendor name "a  b" (two spaces) its key differs from
the claimed lower(trim(collapseWhitespace(name))). -/
theorem claim_C4_counterexample :
    helpVendorKey (("a  b").data) ≠ specVendorKey (("a  b").data) := by decide

/-- C4 (amended): the app2.py normalizer derives
vendorKey = lower(trim(collapseWhitespace(vendorName))); the help.py
normalizer omits the whitespace collapse and derives
vendorKey = lower(trim(vendorName)); both are pure functions of the display
name, and the help.py pipeline applies its derivation to every row. -/
theorem claim_C4_amended (s : List Char) (df : List RawRow) :
    app2VendorKey s = specVendorKey s
    ∧ helpVendorKey s = lowerChars (stripChars s)
    ∧ List.Forall₂ (fun (r : RawRow) (o : NRow) =>
        o.vendorKey = helpVendorKey r.vendorName
        ∧ o.productKey = helpProductKey r.productName)
      df (normalizeCatalog df) := by
  refine ⟨app2VendorKey_eq_spec s, helpVendorKey_eq_lower_trim s, ?_⟩
  unfold normalizeCatalog
  rw [List.forall₂_map_right_iff]
  exact List.forall₂_same.2 (fun r _ => ⟨rfl, rfl⟩)

/-- C5: for every key value, the Aligner selects the candidate with the
maximum similarity score and replaces the value exactly when that maximum
reaches the threshold (inclusive boundary); otherwise the value is kept. -/
theorem claim_C5_threshold (scorer : List Char → List Char → ℚ) (cutoff : ℚ)
    (v : List Char) (choices : List (List Char)) :
    ((∀ c ∈ choices, scorer v c < cutoff) →
        align1 scorer cutoff v choices = v)
    ∧ ((∃ c ∈ choices, cutoff ≤ scorer v c) →
        ∃ b ∈ choices, align1 scorer cutoff v choices = b
          ∧ cutoff ≤ scorer v b ∧ ∀ c ∈ choices, scorer v c ≤ scorer v b) := by
  constructor
  · intro hall
    unfold align1
    rw [(extractOne_eq_none_iff scorer cutoff v choices).2 hall]
  · intro hex
    cases he : extractOne scorer cutoff v choices with
    | none =>
      rcases hex with ⟨c, hc, hcs⟩
      have := (extractOne_eq_none_iff scorer cutoff v choices).1 he c hc
      exact absurd hcs (not_le.2 this)
    | some br =>
      rcases br with ⟨b, bs⟩
      rcases extractOne_eq_some scorer cutoff v choices b bs he
        with ⟨hbmem, hbs, hbc, hbmax⟩
      refine ⟨b, hbmem, ?_, ?_, ?_⟩
      · unfold align1
        rw [he]
      · rw [← hbs]
        exact hbc
      · intro c hc
        rw [← hbs]
        exact hbmax c hc

theorem claim_C5_witness :
    align1 (fun _ _ => (90 : ℚ)) 90 (("x").data) [("y").data] = ("y").data
    ∧ align1 (fun _ _ => (89 : ℚ)) 90 (("x").data) [("y").data] = ("x").data := by
  constructor
  · obtain ⟨b, hb, heq, -, -⟩ :=
      (claim_C5_threshold (fun _ _ => (90 : ℚ)) 90 (("x").data) [("y").data]).2
        ⟨("y").data, by simp, by norm_num⟩
    rw [heq]
    simpa using hb
  · exact (claim_C5_threshold (fun _ _ => (89 : ℚ)) 90 (("x").data) [("y").data]).1
      (by intro c _; norm_num)

/-- C6: alignment is one-directional. `fuzzy_align_names` returns only a
rewrite of the source table (the target is untouched); every returned key is
either the row's original key or a value already present in the target key
column, and all other fields are preserved row by row. -/
theorem claim_C6_one_directional (scorer : List Char → List Char → ℚ)
    (cutoff : ℚ) (c1 c2 : List NRow) :
    List.Forall₂ (fun (r o : NRow) =>
        o.vendorName = r.vendorName ∧ o.price = r.price
        ∧ (o.vendorKey = r.vendorKey ∨ o.vendorKey ∈ c2.map NRow.vendorKey)
        ∧ (o.productKey = r.productKey ∨ o.productKey ∈ c2.map NRow.productKey))
      c1 (fuzzy_align_names scorer cutoff c1 c2) := by
  unfold fuzzy_align_names
  rw [List.forall₂_map_right_iff]
  apply List.forall₂_same.2
  intro r _
  refine ⟨rfl, rfl, ?_, ?_⟩
  · cases he : extractOne scorer cutoff r.vendorKey
        (dedupFirst (fun x => x) (c2.map NRow.vendorKey)) with
    | none =>
      left
      show align1 scorer cutoff r.vendorKey _ = r.vendorKey
      unfold align1
      rw [he]
    | some br =>
      right
      rcases br with ⟨b, bs⟩
      rcases extractOne_eq_some scorer cutoff r.vendorKey _ b bs he
        with ⟨hbmem, -, -, -⟩
      have : align1 scorer cutoff r.vendorKey
          (dedupFirst (fun x => x) (c2.map NRow.vendorKey)) = b := by
        unfold align1
        rw [he]
      rw [show ({ r with
            vendorKey := align1 scorer cutoff r.vendorKey
              (dedupFirst (fun x => x) (c2.map NRow.vendorKey))
            productKey := align1 scorer cutoff r.productKey
              (dedupFirst (fun x => x) (c2.map NRow.productKey)) } : NRow).vendorKey
          = align1 scorer cutoff r.vendorKey
              (dedupFirst (fun x => x) (c2.map NRow.vendorKey)) from rfl, this]
      exact (mem_dedupFirst_id _ b).1 hbmem
  · cases he : extractOne scorer cutoff r.productKey
        (dedupFirst (fun x => x) (c2.map NRow.productKey)) with
    | none =>
      left
      show align1 scorer cutoff r.productKey _ = r.productKey
      unfold align1
      rw [he]
    | some br =>
      right
      rcases br with ⟨b, bs⟩
      rcases extractOne_eq_some scorer cutoff r.productKey _ b bs he
        with ⟨hbmem, -, -, -⟩
      have : align1 scorer cutoff r.productKey
          (dedupFirst (fun x => x) (c2.map NRow.productKey)) = b := by
        unfold align1
        rw [he]
      rw [show ({ r with
            vendorKey := align1 scorer cutoff r.vendorKey
              (dedupFirst (fun x => x) (c2.map NRow.vendorKey))
            productKey := align1 scorer cutoff r.productKey
              (dedupFirst (fun x => x) (c2.map NRow.productKey)) } : NRow).productKey
          = align1 scorer cutoff r.productKey
              (dedupFirst (fun x => x) (c2.map NRow.productKey)) from rfl, this]
      exact (mem_dedupFirst_id _ b).1 hbmem

theorem relOf_none_left (p : Option NRow × Option NRow)
    (h : p.1.bind NRow.price = none) : relOf p = none := by
  unfold relOf
  cases hx : p.2.bind NRow.price with
  | none =>
    simp only [h, hx]
    split <;> rfl
  | some b =>
    simp only [h, hx]
    split <;> rfl

theorem relOf_none_right (p : Option NRow × Option NRow)
    (h : p.2.bind NRow.price = none) : relOf p = none := by
  unfold relOf
  cases hx : p.1.bind NRow.price with
  | none =>
    simp only [h, hx]
    split <;> rfl
  | some b =>
    simp only [h, hx]
    split <;> rfl

/-- C7: the normalizer parses the price and turns an unparseable price into
null (never an error, never zero), keeps one output row per input row, and
null-priced rows still take part in the join, surfacing with a null price
relation. -/
theorem claim_C7_null_price (df : List RawRow) (ls rs : List NRow) :
    ((normalizeCatalog df).length = df.length)
    ∧ List.Forall₂ (fun (r : RawRow) (o : NRow) => o.price = toNumeric r.price)
        df (normalizeCatalog df)
    ∧ (∀ s, toNumeric (RawVal.text s) = none ∧ toNumeric (RawVal.text s) ≠ some 0)
    ∧ (∀ l ∈ ls, (∃ m ∈ build_item_matches ls rs, m.left = some l)
        ∧ ∀ m ∈ build_item_matches ls rs, m.left = some l → l.price = none →
            m.priceRel = none)
    ∧ (∀ r ∈ rs, (∃ m ∈ build_item_matches ls rs, m.right = some r)
        ∧ ∀ m ∈ build_item_matches ls rs, m.right = some r → r.price = none →
            m.priceRel = none) := by
  refine ⟨?_, ?_, ?_, ?_, ?_⟩
  · unfold normalizeCatalog
    rw [List.length_map]
  · unfold normalizeCatalog
    rw [List.forall₂_map_right_iff]
    exact List.forall₂_same.2 (fun r _ => rfl)
  · intro s
    exact ⟨rfl, by simp [toNumeric]⟩
  · intro l hl
    constructor
    · rcases outerMerge_left_exists keyOf ls rs l hl with ⟨p, hp, hp1⟩
      exact ⟨⟨p.1, p.2, statusOf p, relOf p⟩, List.mem_map.2 ⟨p, hp, rfl⟩, hp1⟩
    · intro m hm hml hlp
      rcases List.mem_map.1 hm with ⟨p, hp, rfl⟩
      have hpl : p.1 = some l := hml
      have h1 : p.1.bind NRow.price = none := by
        rw [hpl]
        simpa using hlp
      exact relOf_none_left p h1
  · intro r hr
    constructor
    · rcases outerMerge_right_exists keyOf ls rs r hr with ⟨p, hp, hp2⟩
      exact ⟨⟨p.1, p.2, statusOf p, relOf p⟩, List.mem_map.2 ⟨p, hp, rfl⟩, hp2⟩
    · intro m hm hmr hrp
      rcases List.mem_map.1 hm with ⟨p, hp, rfl⟩
      have hpr : p.2 = some r := hmr
      have h2 : p.2.bind NRow.price = none := by
        rw [hpr]
        simpa using hrp
      exact relOf_none_right p h2

/-- Raw row with an unparseable price, for the C7 witness. -/
def rawC7 : RawRow := ⟨("A").data, ("widget").data, RawVal.text (("oops").data)⟩

/-- Normalized form of `rawC7`. -/
def nC7 : NRow := ⟨("A").data, ("a").data, ("widget").data, none⟩

theorem claim_C7_witness :
    toNumeric (RawVal.text (("oops").data)) = none
    ∧ normalizeCatalog [rawC7] = [nC7]
    ∧ (∃ m ∈ build_item_matches [nC7] [], m.left = some nC7 ∧ m.priceRel = none) := by
  have h := claim_C7_null_price [rawC7] [nC7] []
  refine ⟨(h.2.2.1 (("oops").data)).1, by decide, ?_⟩
  rcases (h.2.2.2.1 nC7 (by decide)).1 with ⟨m, hm, hml⟩
  exact ⟨m, hm, hml, (h.2.2.2.1 nC7 (by decide)).2 m hm hml rfl⟩

/-- C8 counterexample: the unit-rewrite hook is not idempotent. On the
product name "1kg" one pass yields "1 kilogram", but a second pass re-parses
the bare numeral "1" as a dimensionless quantity and rewrites again. -/
theorem claim_C8_counterexample :
    helpProductKey (helpProductKey (("1kg").data)) ≠ helpProductKey (("1kg").data) := by
  decide

/-- C8 (amended): the vendor-key derivation of both normalizer variants is
idempotent; the product-name canonicalization with the unit-rewrite hook is
not (see the counterexample). -/
theorem claim_C8_amended (s : List Char) :
    helpVendorKey (helpVendorKey s) = helpVendorKey s
    ∧ app2VendorKey (app2VendorKey s) = app2VendorKey s :=
  ⟨helpVendorKey_idem s, app2VendorKey_idem s⟩

/-- C9: `get_vendor_discounts` emits, within each source independently, one
row per product whose group has at least two distinct (non-null) prices, with
discounted price = group minimum, original price = group maximum and
discountPercent = (max − min)/max × 100; the per-source results are
outer-joined on the product key, with null on the side lacking multi-price
history. -/
theorem claim_C9_discounts (v : List Char) (c1 c2 : List NRow) (k : List Char) :
    ((1 < (dedupFirst (fun x => x) (nonNullPrices v k c1)).length
        ∨ 1 < (dedupFirst (fun x => x) (nonNullPrices v k c2)).length) →
      (get_vendor_discounts v c1 c2).countP (fun row => row.productKey = k) = 1)
    ∧ (¬(1 < (dedupFirst (fun x => x) (nonNullPrices v k c1)).length
        ∨ 1 < (dedupFirst (fun x => x) (nonNullPrices v k c2)).length) →
      (get_vendor_discounts v c1 c2).countP (fun row => row.productKey = k) = 0)
    ∧ ∀ row ∈ get_vendor_discounts v c1 c2, row.productKey = k →
        ((row.disc1 = none
            ↔ ¬ 1 < (dedupFirst (fun x => x) (nonNullPrices v k c1)).length)
        ∧ (∀ mn mx pct, row.disc1 = some (mn, mx, pct) →
            (mn ∈ nonNullPrices v k c1 ∧ ∀ x ∈ nonNullPrices v k c1, mn ≤ x)
            ∧ (mx ∈ nonNullPrices v k c1 ∧ ∀ x ∈ nonNullPrices v k c1, x ≤ mx)
            ∧ pct = (mx - mn) / mx * 100)
        ∧ (row.disc2 = none
            ↔ ¬ 1 < (dedupFirst (fun x => x) (nonNullPrices v k c2)).length)
        ∧ (∀ mn mx pct, row.disc2 = some (mn, mx, pct) →
            (mn ∈ nonNullPrices v k c2 ∧ ∀ x ∈ nonNullPrices v k c2, mn ≤ x)
            ∧ (mx ∈ nonNullPrices v k c2 ∧ ∀ x ∈ nonNullPrices v k c2, x ≤ mx)
            ∧ pct = (mx - mn) / mx * 100)) := by
  have hn1 : ((processDiscounts v c1).map Prod.fst).Nodup :=
    processDiscounts_keys_nodup v c1
  have hn2 : ((processDiscounts v c2).map Prod.fst).Nodup :=
    processDiscounts_keys_nodup v c2
  have hq1 : ∀ k2, k2 ∈ (processDiscounts v c1).map Prod.fst
      ↔ 1 < (dedupFirst (fun x => x) (nonNullPrices v k2 c1)).length := by
    intro k2
    constructor
    · intro hk
      rcases List.mem_map.1 hk with ⟨e, he, rfl⟩
      exact (processDiscounts_entry v c1 e he).1
    · intro hlen
      rcases processDiscounts_exists v k2 c1 hlen with ⟨e, he, hek⟩
      exact List.mem_map.2 ⟨e, he, hek⟩
  have hq2 : ∀ k2, k2 ∈ (processDiscounts v c2).map Prod.fst
      ↔ 1 < (dedupFirst (fun x => x) (nonNullPrices v k2 c2)).length := by
    intro k2
    constructor
    · intro hk
      rcases List.mem_map.1 hk with ⟨e, he, rfl⟩
      exact (processDiscounts_entry v c2 e he).1
    · intro hlen
      rcases processDiscounts_exists v k2 c2 hlen with ⟨e, he, hek⟩
      exact List.mem_map.2 ⟨e, he, hek⟩
  have hcnt : (get_vendor_discounts v c1 c2).countP (fun row => row.productKey = k)
      = (outerMerge Prod.fst (processDiscounts v c1) (processDiscounts v c2)).countP
          (fun p => mergedKey Prod.fst p = some k) := by
    unfold get_vendor_discounts
    rw [List.countP_map]
    apply List.countP_congr
    intro p hp
    rcases outerMerge_shape Prod.fst _ _ p hp with ⟨e, he⟩ | ⟨hnone, e2, he2⟩
    · rcases p with ⟨a, b⟩
      obtain rfl : a = some e := he
      simp [mergedKey, Function.comp]
    · rcases p with ⟨a, b⟩
      obtain rfl : a = none := hnone
      obtain rfl : b = some e2 := he2
      simp [mergedKey, Function.comp]
  refine ⟨?_, ?_, ?_⟩
  · intro hq
    rw [hcnt, outerMerge_countKey Prod.fst _ _ k hn1 hn2, if_pos (by
      rcases hq with hq | hq
      · exact Or.inl ((hq1 k).2 hq)
      · exact Or.inr ((hq2 k).2 hq))]
  · intro hq
    rw [hcnt, outerMerge_countKey Prod.fst _ _ k hn1 hn2, if_neg (by
      intro hc
      apply hq
      rcases hc with hc | hc
      · exact Or.inl ((hq1 k).1 hc)
      · exact Or.inr ((hq2 k).1 hc))]
  · intro row hrow hrk
    unfold get_vendor_discounts at hrow
    rcases List.mem_map.1 hrow with ⟨p, hp, rfl⟩
    have hsides := outerMerge_sides Prod.fst _ _ p hp
    rcases outerMerge_shape Prod.fst _ _ p hp with ⟨e, he⟩ | ⟨hnone, e2, he2⟩
    · rcases p with ⟨a, o2⟩
      obtain rfl : a = some e := he
      rcases e with ⟨ek, emn, emx, epc⟩
      have heD : (ek, emn, emx, epc) ∈ processDiscounts v c1 := hsides.1 _ rfl
      have hek : ek = k := hrk
      subst hek
      have hent := processDiscounts_entry v c1 (ek, emn, emx, epc) heD
      cases o2 with
      | some e2 =>
        rcases e2 with ⟨fk, fmn, fmx, fpc⟩
        have he2D : (fk, fmn, fmx, fpc) ∈ processDiscounts v c2 := hsides.2.1 _ rfl
        have hke : fk = ek := hsides.2.2 _ _ rfl rfl
        subst hke
        have hent2 := processDiscounts_entry v c2 (fk, fmn, fmx, fpc) he2D
        refine ⟨iff_of_false (by simp) (fun hq => hq hent.1), ?_,
          iff_of_false (by simp) (fun hq => hq hent2.1), ?_⟩
        · intro mn mx pct hsome
          simp only [Option.some.injEq, Prod.mk.injEq] at hsome
          obtain ⟨rfl, rfl, rfl⟩ := hsome
          exact ⟨listMin_spec _ _ hent.2.1, listMax_spec _ _ hent.2.2.1,
            hent.2.2.2⟩
        · intro mn mx pct hsome
          simp only [Option.some.injEq, Prod.mk.injEq] at hsome
          obtain ⟨rfl, rfl, rfl⟩ := hsome
          exact ⟨listMin_spec _ _ hent2.2.1, listMax_spec _ _ hent2.2.2.1,
            hent2.2.2.2⟩
      | none =>
        have hst := outerMerge_status Prod.fst (processDiscounts v c1)
          (processDiscounts v c2) ek (some (ek, emn, emx, epc), none) hp
          (by simp [mergedKey])
        have hk1 : ek ∈ (processDiscounts v c1).map Prod.fst :=
          List.mem_map.2 ⟨(ek, emn, emx, epc), heD, rfl⟩
        have hk2 : ¬ ek ∈ (processDiscounts v c2).map Prod.fst := by
          intro hk2
          rw [if_pos hk1, if_pos hk2] at hst
          exact absurd hst (by simp [statusOf])
        refine ⟨iff_of_false (by simp) (fun hq => hq hent.1), ?_,
          iff_of_true rfl (fun hq => hk2 ((hq2 ek).2 hq)), ?_⟩
        · intro mn mx pct hsome
          simp only [Option.some.injEq, Prod.mk.injEq] at hsome
          obtain ⟨rfl, rfl, rfl⟩ := hsome
          exact ⟨listMin_spec _ _ hent.2.1, listMax_spec _ _ hent.2.2.1,
            hent.2.2.2⟩
        · intro mn mx pct hsome
          exact absurd hsome (by simp)
    · rcases p with ⟨a, b⟩
      obtain rfl : a = none := hnone
      obtain rfl : b = some e2 := he2
      rcases e2 with ⟨fk, fmn, fmx, fpc⟩
      have he2D : (fk, fmn, fmx, fpc) ∈ processDiscounts v c2 := hsides.2.1 _ rfl
      have hfk : fk = k := hrk
      subst hfk
      have hent2 := processDiscounts_entry v c2 (fk, fmn, fmx, fpc) he2D
      have hst := outerMerge_status Prod.fst (processDiscounts v c1)
        (processDiscounts v c2) fk (none, some (fk, fmn, fmx, fpc)) hp
        (by simp [mergedKey])
      have hk1 : ¬ fk ∈ (processDiscounts v c1).map Prod.fst := by
        intro hk1
        rw [if_pos hk1] at hst
        by_cases hk2 : fk ∈ (processDiscounts v c2).map Prod.fst
        · rw [if_pos hk2] at hst
          exact absurd hst (by simp [statusOf])
        · rw [if_neg hk2] at hst
          exact absurd hst (by simp [statusOf])
      refine ⟨iff_of_true rfl (fun hq => hk1 ((hq1 fk).2 hq)), ?_,
        iff_of_false (by simp) (fun hq => hq hent2.1), ?_⟩
      · intro mn mx pct hsome
        exact absurd hsome (by simp)
      · intro mn mx pct hsome
        simp only [Option.some.injEq, Prod.mk.injEq] at hsome
        obtain ⟨rfl, rfl, rfl⟩ := hsome
        exact ⟨listMin_spec _ _ hent2.2.1, listMax_spec _ _ hent2.2.2.1,
          hent2.2.2.2⟩

/-- First source table of the discount witness (prices 10 and 8). -/
def dfD1 : List NRow :=
  [⟨("Acme").data, ("acme").data, ("widget").data, some 10⟩,
   ⟨("Acme").data, ("acme").data, ("widget").data, some 8⟩]

/-- Second source table of the discount witness (single price 5). -/
def dfD2 : List NRow :=
  [⟨("Acme").data, ("acme").data, ("widget").data, some 5⟩]

theorem claim_C9_witness :
    ((get_vendor_discounts (("acme").data) dfD1 dfD2).countP
        (fun row => row.productKey = ("widget").data) = 1)
    ∧ (∃ row ∈ get_vendor_discounts (("acme").data) dfD1 dfD2,
        row.productKey = ("widget").data
        ∧ row.disc1 = some (8, 10, 20) ∧ row.disc2 = none) := by
  have h := claim_C9_discounts (("acme").data) dfD1 dfD2 (("widget").data)
  have hcount : (get_vendor_discounts (("acme").data) dfD1 dfD2).countP
      (fun row => row.productKey = ("widget").data) = 1 := h.1 (Or.inl (by decide))
  refine ⟨hcount, ?_⟩
  have hpos : 0 < (get_vendor_discounts (("acme").data) dfD1 dfD2).countP
      (fun row => row.productKey = ("widget").data) := by omega
  rcases List.countP_pos.1 hpos with ⟨row, hrow, hkey⟩
  have hkey2 : row.productKey = ("widget").data := by simpa using hkey
  have hspec := h.2.2 row hrow hkey2
  have hq1 : 1 < (dedupFirst (fun x => x)
      (nonNullPrices (("acme").data) (("widget").data) dfD1)).length := by decide
  have hd1ne : row.disc1 ≠ none := by
    intro hnone
    exact (hspec.1.1 hnone) hq1
  cases hd1 : row.disc1 with
  | none => exact absurd hd1 hd1ne
  | some trip =>
    rcases trip with ⟨mn, mx, pct⟩
    have hval := hspec.2.1 mn mx pct hd1
    have hg : nonNullPrices (("acme").data) (("widget").data) dfD1 = [10, 8] := by
      decide
    rw [hg] at hval
    have hmem1 : mn = 10 ∨ mn = 8 := by
      have := hval.1.1
      simpa using this
    have hle8 : mn ≤ 8 := hval.1.2 8 (by simp)
    have hmn : mn = 8 := by
      rcases hmem1 with rfl | rfl
      · norm_num at hle8
      · rfl
    have hmem2 : mx = 10 ∨ mx = 8 := by
      have := hval.2.1.1
      simpa using this
    have hge10 : (10 : ℚ) ≤ mx := hval.2.1.2 10 (by simp)
    have hmx : mx = 10 := by
      rcases hmem2 with rfl | rfl
      · rfl
      · norm_num at hge10
    have hpct : pct = 20 := by
      rw [hval.2.2, hmn, hmx]
      norm_num
    subst hmn
    subst hmx
    subst hpct
    have hd2 : row.disc2 = none := hspec.2.2.1.2 (by decide)
    exact ⟨row, hrow, hkey2, hd1, hd2⟩

/-- C10: null prices never create price multiplicity. A vendor is listed by
`get_vendors_with_price_duplicates` exactly when some of its groups has more
than one distinct non-null price, and a group without such multiplicity
(for instance one non-null price plus any number of nulls) produces no
discount entry. -/
theorem claim_C10_null_multiplicity (df c : List NRow) (v k : List Char) :
    (v ∈ get_vendors_with_price_duplicates df
      ↔ ∃ k2, (v, k2) ∈ df.map keyOf
          ∧ 1 < (dedupFirst (fun x => x) (nonNullPrices v k2 df)).length)
    ∧ ((dedupFirst (fun x => x) (nonNullPrices v k c)).length ≤ 1 →
        ∀ e ∈ processDiscounts v c, e.1 ≠ k) := by
  constructor
  · unfold get_vendors_with_price_duplicates
    rw [mem_dedupFirst_id]
    constructor
    · intro hmem
      rcases List.mem_map.1 hmem with ⟨p, hpf, rfl⟩
      rcases List.mem_filter.1 hpf with ⟨hpin, hq⟩
      refine ⟨p.2, ?_, by simpa using hq⟩
      have hp := (mem_dedupFirst_id _ p).1 hpin
      simpa using hp
    · rintro ⟨k2, hk2, hq⟩
      apply List.mem_map.2
      exact ⟨(v, k2), List.mem_filter.2
        ⟨(mem_dedupFirst_id _ _).2 hk2, by simpa using hq⟩, rfl⟩
  · intro hle e he hek
    have hlen := (processDiscounts_entry v c e he).1
    rw [hek] at hlen
    omega

/-- Table for the C10 witness: one non-null price and two nulls in one
group. -/
def dfC10 : List NRow :=
  [⟨("V").data, ("v").data, ("p").data, some 5⟩,
   ⟨("V").data, ("v").data, ("p").data, none⟩,
   ⟨("V").data, ("v").data, ("p").data, none⟩]

theorem claim_C10_witness :
    (¬ (("v").data) ∈ get_vendors_with_price_duplicates dfC10)
    ∧ ∀ e ∈ processDiscounts (("v").data) dfC10, e.1 ≠ ("p").data := by
  have h := claim_C10_null_multiplicity dfC10 dfC10 (("v").data) (("p").data)
  constructor
  · intro hmem
    rcases h.1.1 hmem with ⟨k2, hk2, hlen⟩
    have hk2p : k2 = ("p").data := by
      have hm : ((("v").data : List Char), k2) ∈ dfC10.map keyOf := hk2
      simp [dfC10, keyOf] at hm
      exact hm
    subst hk2p
    exact absurd hlen (by decide)
  · exact h.2 (by decide)
